import Mathlib

set_option linter.unusedVariables false

/-!
Shallow embedding of the core of the `file_query` repository: the lazy
file-entity cache (`src/file.rs`, `src/uid.rs`, `src/utils.rs`) and the
adaptive table layout engine (`src/print.rs`, `src/print/utils.rs`).

The global mutable maps `FILES` and `PATHS` of the source are modelled as an
explicit `Store` value threaded through every operation.  Randomly drawn
128-bit uids (`rand::random::<u128>()`, whose collision probability the code
treats as negligible) are modelled by a fresh-counter supply; the 4-bit tag
subspace of `Uid` is modelled by an explicit `tag` field (the top 4 bits of
the `u128`) next to the 124-bit payload `val`.  A Rust `panic!` / failing
`unwrap` is modelled as `none` (or `PathRes.crashed` for path resolution,
where panics must be told apart from recursion-budget exhaustion).
Filesystem reads (`fs::read_dir` plus the per-entry metadata calls) are
modelled by a pure oracle `Os`; the store counts the number of `read_dir`
calls in `os_reads` so that "does not re-read the OS" is stateable.
-/

/-- `FileType` from `src/file.rs`. -/
inductive FileType where
  | file
  | dir
  | symlink
  deriving DecidableEq

/-- Rust derives `Ord` on `FileType`; declaration order gives this rank. -/
def FileType.rank : FileType → Nat
  | FileType.file => 0
  | FileType.dir => 1
  | FileType.symlink => 2

/-- `Uid` from `src/uid.rs`: a `u128` whose top 4 bits are a tag
(0 = normal file, 1 = error, 2 = truncated-rows message, 3 = message)
and whose low 124 bits are the payload. -/
structure Uid where
  tag : Nat
  val : Nat
  deriving DecidableEq

def Uid.BASE : Uid := ⟨0, 0⟩

def Uid.ROOT : Uid := ⟨0, 1⟩

/-- `Uid::is_special`: the tag bits are nonzero. -/
def Uid.is_special (u : Uid) : Bool := u.tag != 0

/-- `Uid::message_for_truncated_rows`: deterministic, `(0x2 << 124) | n`. -/
def Uid.message_for_truncated_rows (n : Nat) : Uid := ⟨2, n⟩

/-- `File` from `src/file.rs` (`last_modified` is a `SystemTime`, modelled
as a plain number; it is never interpreted by the embedded operations). -/
structure File where
  parent : Option Uid
  uid : Uid
  name : String
  last_modified : Nat
  size : Nat
  recursive_size : Option Nat
  file_type : FileType
  file_ext : Option String
  children : Option (List Uid)
  deriving DecidableEq

def File.is_special_file (f : File) : Bool := f.uid.is_special

def File.is_dir (f : File) : Bool := !f.is_special_file && f.file_type == FileType.dir

def File.is_file (f : File) : Bool := !f.is_special_file && f.file_type == FileType.file

def File.is_hidden_file (f : File) : Bool := !f.is_special_file && f.name.startsWith "."

/-- The global state: `FILES`, `PATHS`, the fresh-uid supply standing in for
the random generator, and a counter of `fs::read_dir` calls. -/
structure Store where
  files : List (Uid × File)
  paths : List (Uid × String)
  fresh : Nat
  os_reads : Nat
  deriving DecidableEq

/-- `get_file_by_uid` from `src/utils.rs` (`FILES.get_mut(&uid)`). -/
def get_file_by_uid (st : Store) (u : Uid) : Option File :=
  (st.files.find? (fun p => p.1 == u)).map (fun p => p.2)

/-- The cached-path lookup `PATHS.get(&uid)` from `src/utils.rs`. -/
def get_cached_path (st : Store) (u : Uid) : Option String :=
  (st.paths.find? (fun p => p.1 == u)).map (fun p => p.2)

def Store.insert_file (st : Store) (u : Uid) (f : File) : Store :=
  { st with files := (u, f) :: st.files }

def Store.insert_path (st : Store) (u : Uid) (p : String) : Store :=
  { st with paths := (u, p) :: st.paths }

/-- In-place mutation of the entry stored under `u` (the source mutates
through `get_file_by_uid(uid).unwrap()`). -/
def Store.update_file (st : Store) (u : Uid) (g : File → File) : Store :=
  { st with files := st.files.map (fun p => if p.1 == u then (p.1, g p.2) else p) }

/-- `Uid::normal_file()`: a random `u128` with tag 0, modelled as a fresh draw. -/
def Store.fresh_normal_uid (st : Store) : Uid × Store :=
  (⟨0, st.fresh⟩, { st with fresh := st.fresh + 1 })

/-- `Uid::error()`: a random `u128` with tag 1, modelled as a fresh draw. -/
def Store.fresh_error_uid (st : Store) : Uid × Store :=
  (⟨1, st.fresh⟩, { st with fresh := st.fresh + 1 })

/-- The error kinds relevant to `File::from_io_error`, which matches
`PermissionDenied` and panics on every other kind. -/
inductive IoErrorKind where
  | permission_denied
  | not_found
  | other
  deriving DecidableEq

/-- `File::dummy`: placeholder whose `uid` (a random error uid in the
source) and other fields are always overridden or never read. -/
def File.dummy : File :=
  { parent := none, uid := ⟨1, 0⟩, name := "", last_modified := 0, size := 0,
    recursive_size := none, file_type := FileType.file, file_ext := none,
    children := none }

/-- `File::from_io_error` from `src/file.rs`: a `PermissionDenied` error is
registered as a synthetic `<<Error: ...>>` entry; every other error kind
hits `panic!("{e:?}")`, modelled as `none`. -/
def from_io_error (e : IoErrorKind) (st : Store) : Option (Uid × Store) :=
  match e with
  | IoErrorKind.permission_denied =>
    let message := "<<Error: Permission Denied>>"
    let (uid, st) := st.fresh_error_uid
    some (uid, st.insert_file uid { File.dummy with uid := uid, name := message })
  | _ => none

/-- `File::from_error_msg` from `src/file.rs`. -/
def from_error_msg (e : String) (st : Store) : Uid × Store :=
  let message := if e.isEmpty then "<<Error>>" else "<<Error: " ++ e ++ ">>"
  let (uid, st) := st.fresh_error_uid
  (uid, st.insert_file uid { File.dummy with uid := uid, name := message })

/-- `File::message_for_truncated_rows` from `src/file.rs`: deterministic uid,
deduplicated against the store. -/
def message_for_truncated_rows (n : Nat) (st : Store) : Uid × Store :=
  let uid := Uid.message_for_truncated_rows n
  if (get_file_by_uid st uid).isSome then (uid, st)
  else
    (uid, st.insert_file uid
      { File.dummy with
        uid := uid
        name := "... (truncated " ++ toString n ++ " row"
          ++ (if n < 2 then "" else "s") ++ ")" })

/-- `prettify_size` from `src/print/utils.rs`. -/
def prettify_size (size : Nat) : String :=
  if size ≤ 9999 then toString size ++ " B  "
  else if size ≤ 9999 <<< 10 then toString (size >>> 10) ++ " KiB"
  else if size ≤ 9999 <<< 20 then toString (size >>> 20) ++ " MiB"
  else if size ≤ 9999 <<< 30 then toString (size >>> 30) ++ " GiB"
  else toString (size >>> 40) ++ " TiB"

/-- Result of path resolution.  `crashed` models a failing `unwrap`
(the process aborts); `fuel_out` models exhausting the recursion budget
(the source would recurse forever / overflow the stack). -/
inductive PathRes where
  | crashed
  | fuel_out
  | ret (p : Option String) (st : Store)
  deriving DecidableEq

/-- `PathBuf::push` of a relative component. -/
def path_join (parent child : String) : String :=
  if parent.endsWith "/" then parent ++ child else parent ++ "/" ++ child

/-- Body of `get_path_by_file` from `src/utils.rs`, abstracted over the
recursive call to `get_path_by_uid`.  The `.unwrap()` on the parent's
resolution is the `crashed` case. -/
def get_path_by_file_aux (recurse : Store → Uid → PathRes) (st : Store) (f : File) :
    PathRes :=
  match f.parent with
  | some parent =>
    match recurse st parent with
    | PathRes.ret (some parent_path) st =>
      PathRes.ret (some (path_join parent_path f.name)) st
    | PathRes.ret none _ => PathRes.crashed
    | r => r
  | none =>
    if f.uid == Uid.ROOT then PathRes.ret (some "/") st else PathRes.ret none st

/-- `get_path_by_uid` from `src/utils.rs`: returns the cached path, else
computes it through the parent chain and memoizes it into `PATHS`. -/
def get_path_by_uid : Nat → Store → Uid → PathRes
  | 0, _, _ => PathRes.fuel_out
  | fuel+1, st, uid =>
    match get_cached_path st uid with
    | some p => PathRes.ret (some p) st
    | none =>
      match get_file_by_uid st uid with
      | some file =>
        match get_path_by_file_aux (get_path_by_uid fuel) st file with
        | PathRes.ret (some path) st =>
          PathRes.ret (some path) (st.insert_path uid path)
        | r => r
      | none => PathRes.ret none st

/-- `get_path_by_file` from `src/utils.rs`. -/
def get_path_by_file (fuel : Nat) (st : Store) (f : File) : PathRes :=
  get_path_by_file_aux (get_path_by_uid fuel) st f


deriving instance DecidableEq for Except

/-- Metadata of one directory entry as the OS reports it
(`metadata()` + `modified()` collapsed; an error in either is the
`Except.error` case of `OsDirEntry.meta`). -/
structure OsMeta where
  size : Nat
  last_modified : Nat
  file_type : FileType
  file_ext : Option String
  deriving DecidableEq

/-- One `fs::DirEntry`.  `name_utf8` tells whether `file_name().to_str()`
returns `Some`; `name` is the (lossy) name used when it does. -/
structure OsDirEntry where
  name_utf8 : Bool
  name : String
  meta : Except IoErrorKind OsMeta
  deriving DecidableEq

/-- The filesystem oracle: `fs::read_dir` yields either an error or a list
of items, each itself either `Ok(DirEntry)` or `Err(e)`. -/
structure Os where
  read_dir : String → Except IoErrorKind (List (Except IoErrorKind OsDirEntry))

/-- `File::new_from_dir_entry` from `src/file.rs`: metadata errors go to
`from_io_error` (panicking unless permission-denied), a non-UTF8 name goes
to `from_error_msg`, otherwise a fresh normal entry is registered with
`recursive_size` memoized at creation for regular files. -/
def new_from_dir_entry (d : OsDirEntry) (parent : Option Uid) (st : Store) :
    Option (Uid × Store) :=
  match d.meta with
  | Except.error e => from_io_error e st
  | Except.ok m =>
    if !d.name_utf8 then some (from_error_msg "" st)
    else
      let (uid, st) := st.fresh_normal_uid
      let result : File :=
        { parent := parent
          uid := uid
          name := d.name
          last_modified := m.last_modified
          size := m.size
          recursive_size := if m.file_type == FileType.file then some m.size else none
          file_type := m.file_type
          file_ext := m.file_ext
          children := none }
      some (uid, st.insert_file uid result)

/-- One iteration of the entry loop of `File::init_children`: an `Ok` item
becomes a new entry, an `Err` item goes through `from_io_error`. -/
def read_entry_step (parent : Uid) (e : Except IoErrorKind OsDirEntry) (st : Store) :
    Option (Uid × Store) :=
  match e with
  | Except.ok d => new_from_dir_entry d (some parent) st
  | Except.error err => from_io_error err st

/-- The entry loop of `File::init_children`. -/
def read_entries (parent : Uid) :
    List (Except IoErrorKind OsDirEntry) → Store → Option (List Uid × Store)
  | [], st => some ([], st)
  | e :: rest, st =>
    match read_entry_step parent e st with
    | none => none
    | some (u, st) =>
      match read_entries parent rest st with
      | none => none
      | some (us, st) => some (u :: us, st)

/-- `File::init_children` from `src/file.rs`: no-op when the children are
already present or the entry is not a directory; otherwise one `read_dir`
call fills `children` (a failing `read_dir` yields a single synthetic error
child).  `fuel` bounds the path-resolution recursion. -/
def init_children (fuel : Nat) (os : Os) (st : Store) (uid : Uid) : Option Store :=
  match get_file_by_uid st uid with
  | none => none
  | some f =>
    if f.children.isSome || !f.is_dir then some st
    else
      match get_path_by_uid fuel st uid with
      | PathRes.ret (some self_path) st =>
        let st := { st with os_reads := st.os_reads + 1 }
        match os.read_dir self_path with
        | Except.ok entries =>
          match read_entries uid entries st with
          | none => none
          | some (result, st) =>
            some (st.update_file uid (fun f => { f with children := some result }))
        | Except.error e =>
          match from_io_error e st with
          | none => none
          | some (err_uid, st) =>
            some (st.update_file uid (fun f => { f with children := some [err_uid] }))
      | _ => none

/-- The lookups `get_file_by_uid(*uid).unwrap()` filtering out hidden
children in `get_children` / `get_children_num`. -/
def filter_hidden_children (st : Store) : List Uid → Option (List Uid)
  | [] => some []
  | u :: us =>
    match get_file_by_uid st u with
    | none => none
    | some f =>
      match filter_hidden_children st us with
      | none => none
      | some rest => some (if f.is_hidden_file then rest else u :: rest)

/-- The `get_file_by_uid(*child).unwrap()` lookups forced by collecting the
child iterator in `get_children`. -/
def all_children_registered (st : Store) : List Uid → Bool
  | [] => true
  | u :: us => (get_file_by_uid st u).isSome && all_children_registered st us

/-- `File::get_children_num` from `src/file.rs`: expands the directory if
needed, then counts (all or non-hidden) children. -/
def get_children_num (fuel : Nat) (os : Os) (st : Store) (uid : Uid)
    (include_hidden_files : Bool) : Option (Nat × Store) :=
  match get_file_by_uid st uid with
  | none => none
  | some f =>
    if f.is_dir then
      match f.children with
      | some c =>
        if include_hidden_files then some (c.length, st)
        else (filter_hidden_children st c).map (fun l => (l.length, st))
      | none =>
        match init_children fuel os st uid with
        | none => none
        | some st =>
          match get_file_by_uid st uid with
          | none => none
          | some f' =>
            match f'.children with
            | none => none
            | some c =>
              if include_hidden_files then some (c.length, st)
              else (filter_hidden_children st c).map (fun l => (l.length, st))
    else some (0, st)

/-- `File::get_children` from `src/file.rs` (returning the children's uids;
the source returns `Vec<&File>`, whose identity is the uid). -/
def get_children (fuel : Nat) (os : Os) (st : Store) (uid : Uid)
    (show_hidden_files : Bool) : Option (List Uid × Store) :=
  match get_children_num fuel os st uid show_hidden_files with
  | none => none
  | some (n, st) =>
    if n == 0 then some ([], st)
    else
      match get_file_by_uid st uid with
      | none => none
      | some f =>
        match f.children with
        | none => none
        | some c =>
          if show_hidden_files then
            if all_children_registered st c then some (c, st) else none
          else (filter_hidden_children st c).map (fun l => (l, st))

/-- The summation loop of `File::get_recursive_size`, abstracted over the
recursive call (`sum += child.get_recursive_size()`). -/
def sum_recursive_sizes (f : Store → Uid → Option (Nat × Store)) :
    List Uid → Store → Option (Nat × Store)
  | [], st => some (0, st)
  | c :: cs, st =>
    match f st c with
    | none => none
    | some (v, st) =>
      match sum_recursive_sizes f cs st with
      | none => none
      | some (s, st) => some (v + s, st)

/-- `File::get_recursive_size` from `src/file.rs`: memo hit returns at once;
otherwise the sizes of all children (hidden included) are summed recursively
and the sum is memoized into the entry. -/
def get_recursive_size : Nat → Os → Store → Uid → Option (Nat × Store)
  | 0, _, _, _ => none
  | fuel+1, os, st, uid =>
    match get_file_by_uid st uid with
    | none => none
    | some f =>
      match f.recursive_size with
      | some s => some (s, st)
      | none =>
        match get_children fuel os st uid true with
        | none => none
        | some (children, st) =>
          match sum_recursive_sizes (get_recursive_size fuel os) children st with
          | none => none
          | some (sum, st) =>
            match get_file_by_uid st uid with
            | none => none
            | some _ =>
              some (sum, st.update_file uid (fun f => { f with recursive_size := some sum }))

/-! ### Basic store lemmas -/

theorem get_file_insert_self (st : Store) (u : Uid) (f : File) :
    get_file_by_uid (st.insert_file u f) u = some f := by
  simp [get_file_by_uid, Store.insert_file, List.find?]

theorem get_file_insert_ne (st : Store) (u w : Uid) (f : File) (h : u ≠ w) :
    get_file_by_uid (st.insert_file u f) w = get_file_by_uid st w := by
  have hb : (u == w) = false := by simp [h]
  simp [get_file_by_uid, Store.insert_file, List.find?, hb]

/-! ### C3 -/

/-- Concrete empty store used for the C3 counterexample. -/
def c3_store : Store := { files := [], paths := [], fresh := 0, os_reads := 0 }

/-- C3, counterexample: the claim says every I/O error kind ("permission
denied, read failure, broken symlink, or any other kind") is converted into a
synthetic Error entry and never propagated as a panic.  In the code,
`File::from_io_error` matches only `PermissionDenied` and executes
`panic!("{e:?}")` (modelled as `none`) for every other kind, e.g. the
`NotFound` of a broken symlink or a generic read failure. -/
theorem c3_io_error_cex :
    from_io_error IoErrorKind.not_found c3_store = none ∧
    from_io_error IoErrorKind.other c3_store = none := by
  exact ⟨rfl, rfl⟩

/-- C3, amended: a permission-denied I/O error is converted into a synthetic
special Error entry named `<<Error: Permission Denied>>` registered in the
store (and never panics); every other error kind makes `from_io_error`
panic instead of producing an Error entry. -/
theorem c3_io_error_amended :
    ∀ st : Store,
      (∃ uid st', from_io_error IoErrorKind.permission_denied st = some (uid, st') ∧
        uid.is_special = true ∧
        get_file_by_uid st' uid =
          some { File.dummy with uid := uid, name := "<<Error: Permission Denied>>" }) ∧
      from_io_error IoErrorKind.not_found st = none ∧
      from_io_error IoErrorKind.other st = none := by
  intro st
  refine ⟨⟨⟨1, st.fresh⟩, _, rfl, rfl, ?_⟩, rfl, rfl⟩
  exact get_file_insert_self _ _ _

/-! ### C4 -/

/-- Store for the C4 counterexample: the entry `⟨0, 5⟩` is registered and its
`parent` link points to `⟨0, 6⟩`, which is not registered; no path is cached. -/
def c4_store : Store :=
  { files := [(⟨0, 5⟩,
      { parent := some ⟨0, 6⟩, uid := ⟨0, 5⟩, name := "a", last_modified := 0,
        size := 0, recursive_size := none, file_type := FileType.dir,
        file_ext := none, children := none })],
    paths := [], fresh := 7, os_reads := 0 }

/-- C4, counterexample: the claim says path resolution returns `None` and
does not panic whenever the entry *or any ancestor* is unregistered.  For an
entry whose `parent` uid is unregistered, `get_path_by_file` calls
`get_path_by_uid(parent).unwrap()` on a `None`, i.e. the process panics
(`PathRes.crashed`), instead of returning `None`.  (The recursion budget 10
far exceeds the parent-chain length 1, so the result is a genuine panic,
not fuel exhaustion.) -/
theorem c4_path_resolution_cex :
    get_path_by_uid 10 c4_store ⟨0, 5⟩ = PathRes.crashed := by
  decide

/-- C4, amended: `get_path_by_uid` returns `None` without panicking when the
requested id itself is unregistered, and when the entry's parent chain ends
at a parentless entry that is not the root sentinel; but when an entry's
`parent` link points at an unregistered id, the `unwrap` in
`get_path_by_file` panics instead of returning `None`. -/
theorem c4_path_resolution_amended :
    (∀ (fuel : Nat) (st : Store) (u : Uid),
      get_cached_path st u = none → get_file_by_uid st u = none →
      get_path_by_uid (fuel + 1) st u = PathRes.ret none st) ∧
    (∀ (fuel : Nat) (st : Store) (u : Uid) (f : File),
      get_cached_path st u = none → get_file_by_uid st u = some f →
      f.parent = none → (f.uid == Uid.ROOT) = false →
      get_path_by_uid (fuel + 1) st u = PathRes.ret none st) ∧
    (∀ (fuel : Nat) (st : Store) (u : Uid) (f : File) (p : Uid),
      get_cached_path st u = none → get_file_by_uid st u = some f →
      f.parent = some p → get_cached_path st p = none → get_file_by_uid st p = none →
      get_path_by_uid (fuel + 2) st u = PathRes.crashed) := by
  refine ⟨?_, ?_, ?_⟩
  · intro fuel st u h1 h2
    simp [get_path_by_uid, h1, h2]
  · intro fuel st u f h1 h2 h3 h4
    simp [get_path_by_uid, h1, h2, get_path_by_file_aux, h3, h4]
  · intro fuel st u f p h1 h2 h3 h4 h5
    simp [get_path_by_uid, h1, h2, get_path_by_file_aux, h3, h4, h5]

/-- Empty store for the C4 witness. -/
def c4_empty : Store := { files := [], paths := [], fresh := 0, os_reads := 0 }

/-- C4 witness: the amended theorem applied at a concrete unregistered id. -/
theorem c4_path_resolution_amended_witness :
    get_path_by_uid 1 c4_empty ⟨0, 7⟩ = PathRes.ret none c4_empty :=
  c4_path_resolution_amended.1 0 c4_empty ⟨0, 7⟩ (by decide) (by decide)

/-! ### C6 -/

/-- Filesystem oracle for the C6 store (never consulted: the directory is
already expanded). -/
def c6_os : Os := ⟨fun _ => Except.error IoErrorKind.permission_denied⟩

def c6_file (u : Uid) (nm : String) (sz : Nat) : File :=
  { parent := some ⟨0, 2⟩, uid := u, name := nm, last_modified := 0, size := sz,
    recursive_size := some sz, file_type := FileType.file, file_ext := none,
    children := none }

/-- A directory holding exactly three regular files of sizes 10, 2048 and
5000000 bytes, as in the spec's example. -/
def c6_store : Store :=
  { files := [
      (⟨0, 2⟩, { parent := none, uid := ⟨0, 2⟩, name := "d", last_modified := 0,
                 size := 0, recursive_size := none, file_type := FileType.dir,
                 file_ext := none, children := some [⟨0, 3⟩, ⟨0, 4⟩, ⟨0, 5⟩] }),
      (⟨0, 3⟩, c6_file ⟨0, 3⟩ "a" 10),
      (⟨0, 4⟩, c6_file ⟨0, 4⟩ "b" 2048),
      (⟨0, 5⟩, c6_file ⟨0, 5⟩ "c" 5000000)],
    paths := [], fresh := 10, os_reads := 0 }

/-- C6, counterexample: the claim says the size column renders 2048 as
`"2 KiB"` and 5000000 as `"4 MiB"`.  `prettify_size` uses the branch bound
9999 (not 1024/1048576), so 2048 falls in the bytes branch and renders as
`"2048 B  "`, and 5000000 falls in the KiB branch and renders as
`"4882 KiB"`; even 10 renders as `"10 B  "` (with two padding blanks),
not `"10 B"`. -/
theorem c6_size_rendering_cex :
    prettify_size 2048 = "2048 B  " ∧ prettify_size 2048 ≠ "2 KiB" ∧
    prettify_size 5000000 = "4882 KiB" ∧ prettify_size 5000000 ≠ "4 MiB" := by
  refine ⟨by decide, by decide, by decide, by decide⟩

/-- C6, amended: for the directory with three files of sizes 10, 2048 and
5000000, the size column renders the values as `"10 B  "`, `"2048 B  "` and
`"4882 KiB"`, and the directory's recursive size is 5002058. -/
theorem c6_size_rendering_amended :
    prettify_size 10 = "10 B  " ∧
    prettify_size 2048 = "2048 B  " ∧
    prettify_size 5000000 = "4882 KiB" ∧
    (get_recursive_size 5 c6_os c6_store ⟨0, 2⟩).map Prod.fst = some 5002058 := by
  refine ⟨by decide, by decide, by decide, by decide⟩

/-! ### Freshness invariant and evolution lemmas for the store -/

/-- `w` cannot be produced by the fresh-uid supply at counter `n` or later:
random-subspace uids (tags 0 and 1) drawn so far have payload below `n`. -/
def Uid.untouched (w : Uid) (n : Nat) : Prop := (w.tag = 0 ∨ w.tag = 1) → w.val < n

/-- Every registered random-subspace uid was drawn before the current
counter, so a fresh draw never collides with a registered entry. -/
def FreshInv (st : Store) : Prop :=
  ∀ p ∈ st.files, (p : Uid × File).1.untouched st.fresh

theorem update_key_comp (u w : Uid) (g : File → File) :
    ((fun q : Uid × File => q.1 == w) ∘ (fun p => if p.1 == u then (p.1, g p.2) else p))
      = fun p : Uid × File => p.1 == w := by
  funext p
  by_cases hc : (p.1 == u) = true
  · simp only [Function.comp, if_pos hc]
  · simp only [Function.comp, if_neg hc]

theorem get_file_update_self (st : Store) (u : Uid) (g : File → File) :
    get_file_by_uid (st.update_file u g) u = (get_file_by_uid st u).map g := by
  show ((st.files.map (fun p => if p.1 == u then (p.1, g p.2) else p)).find?
      (fun p => p.1 == u)).map (fun p => p.2)
    = ((st.files.find? (fun p => p.1 == u)).map (fun p => p.2)).map g
  rw [List.find?_map, update_key_comp]
  rcases hf : st.files.find? (fun p => p.1 == u) with _ | p
  · rw [hf]
    rfl
  · rw [hf]
    have hp := List.find?_some hf
    rw [Option.map_some', Option.map_some', Option.map_some', if_pos hp]
    rfl

theorem get_file_update_ne (st : Store) (u w : Uid) (g : File → File) (h : w ≠ u) :
    get_file_by_uid (st.update_file u g) w = get_file_by_uid st w := by
  show ((st.files.map (fun p => if p.1 == u then (p.1, g p.2) else p)).find?
      (fun p => p.1 == w)).map (fun p => p.2)
    = (st.files.find? (fun p => p.1 == w)).map (fun p => p.2)
  rw [List.find?_map, update_key_comp]
  rcases hf : st.files.find? (fun p => p.1 == w) with _ | p
  · rw [hf]
    rfl
  · rw [hf]
    have hp := List.find?_some hf
    have hpu : (p.1 == u) = false := by
      cases hc : (p.1 == u)
      · rfl
      · exact absurd (show w = u by
          have h1 : p.1 = w := by simpa using hp
          have h2 : p.1 = u := by simpa using hc
          rw [← h1, h2]) h
    rw [Option.map_some', Option.map_some',
      if_neg (by rw [hpu]; exact fun hc => Bool.false_ne_true hc)]
    rfl

theorem fresh_inv_update (st : Store) (u : Uid) (g : File → File) (h : FreshInv st) :
    FreshInv (st.update_file u g) := by
  intro p hp
  simp only [Store.update_file, List.mem_map] at hp
  obtain ⟨q, hq, hpq⟩ := hp
  have := h q hq
  by_cases hc : (q.1 == u) = true
  · rw [if_pos hc] at hpq
    rw [← hpq]
    exact this
  · rw [if_neg hc] at hpq
    rw [← hpq]
    exact this

/-- What a successful `from_io_error` does to the store. -/
theorem from_io_error_spec (e : IoErrorKind) (st : Store) (u : Uid) (st₂ : Store)
    (h : from_io_error e st = some (u, st₂)) :
    st₂.paths = st.paths ∧ st₂.os_reads = st.os_reads ∧ st.fresh < st₂.fresh ∧
    (∀ w, w.untouched st.fresh → get_file_by_uid st₂ w = get_file_by_uid st w) ∧
    (FreshInv st → FreshInv st₂) := by
  cases e with
  | permission_denied =>
    simp only [from_io_error, Store.fresh_error_uid, Option.some.injEq, Prod.mk.injEq] at h
    obtain ⟨hu, hst⟩ := h
    subst hu hst
    refine ⟨rfl, rfl, Nat.lt_succ_self _, ?_, ?_⟩
    · intro w hw
      apply get_file_insert_ne
      intro hc
      have : w.tag = 1 := by rw [← hc]
      have hlt := hw (Or.inr this)
      rw [← hc] at hlt
      exact Nat.lt_irrefl _ hlt
    · intro hinv p hp
      simp only [Store.insert_file, List.mem_cons] at hp
      rcases hp with hp | hp
      · subst hp
        intro _
        exact Nat.lt_succ_self _
      · intro htag
        exact Nat.lt_succ_of_lt (hinv p hp htag)
  | not_found => simp [from_io_error] at h
  | other => simp [from_io_error] at h

/-- What `from_error_msg` does to the store. -/
theorem from_error_msg_spec (e : String) (st : Store) (u : Uid) (st₂ : Store)
    (h : from_error_msg e st = (u, st₂)) :
    st₂.paths = st.paths ∧ st₂.os_reads = st.os_reads ∧ st.fresh < st₂.fresh ∧
    (∀ w, w.untouched st.fresh → get_file_by_uid st₂ w = get_file_by_uid st w) ∧
    (FreshInv st → FreshInv st₂) := by
  simp only [from_error_msg, Store.fresh_error_uid, Prod.mk.injEq] at h
  obtain ⟨hu, hst⟩ := h
  subst hu hst
  refine ⟨rfl, rfl, Nat.lt_succ_self _, ?_, ?_⟩
  · intro w hw
    apply get_file_insert_ne
    intro hc
    have : w.tag = 1 := by rw [← hc]
    have hlt := hw (Or.inr this)
    rw [← hc] at hlt
    exact Nat.lt_irrefl _ hlt
  · intro hinv p hp
    simp only [Store.insert_file, List.mem_cons] at hp
    rcases hp with hp | hp
    · subst hp
      intro _
      exact Nat.lt_succ_self _
    · intro htag
      exact Nat.lt_succ_of_lt (hinv p hp htag)

/-- What a successful `new_from_dir_entry` does to the store. -/
theorem new_from_dir_entry_spec (d : OsDirEntry) (par : Option Uid) (st : Store)
    (u : Uid) (st₂ : Store) (h : new_from_dir_entry d par st = some (u, st₂)) :
    st₂.paths = st.paths ∧ st₂.os_reads = st.os_reads ∧ st.fresh < st₂.fresh ∧
    (∀ w, w.untouched st.fresh → get_file_by_uid st₂ w = get_file_by_uid st w) ∧
    (FreshInv st → FreshInv st₂) := by
  unfold new_from_dir_entry at h
  cases hm : d.meta with
  | error e =>
    rw [hm] at h
    exact from_io_error_spec _ _ _ _ h
  | ok m =>
    rw [hm] at h
    by_cases hn : d.name_utf8 = true
    · simp only [hn, Bool.not_true, Bool.false_eq_true, if_false,
        Store.fresh_normal_uid, Option.some.injEq, Prod.mk.injEq] at h
      obtain ⟨hu, hst⟩ := h
      subst hu hst
      refine ⟨rfl, rfl, Nat.lt_succ_self _, ?_, ?_⟩
      · intro w hw
        apply get_file_insert_ne
        intro hc
        have : w.tag = 0 := by rw [← hc]
        have hlt := hw (Or.inl this)
        rw [← hc] at hlt
        exact Nat.lt_irrefl _ hlt
      · intro hinv p hp
        simp only [Store.insert_file, List.mem_cons] at hp
        rcases hp with hp | hp
        · subst hp
          intro _
          exact Nat.lt_succ_self _
        · intro htag
          exact Nat.lt_succ_of_lt (hinv p hp htag)
    · have hn' : d.name_utf8 = false := by
        cases hb : d.name_utf8
        · rfl
        · exact absurd hb hn
      simp only [hn', Bool.not_false, if_true, Option.some.injEq] at h
      exact from_error_msg_spec "" st u st₂ (by
        cases he : from_error_msg "" st
        rw [he] at h
        exact h.symm ▸ rfl)

/-- What a successful `read_entry_step` does to the store. -/
theorem read_entry_step_spec (parent : Uid) (e : Except IoErrorKind OsDirEntry)
    (st : Store) (u : Uid) (st₂ : Store) (h : read_entry_step parent e st = some (u, st₂)) :
    st₂.paths = st.paths ∧ st₂.os_reads = st.os_reads ∧ st.fresh < st₂.fresh ∧
    (∀ w, w.untouched st.fresh → get_file_by_uid st₂ w = get_file_by_uid st w) ∧
    (FreshInv st → FreshInv st₂) := by
  cases e with
  | ok d => exact new_from_dir_entry_spec _ _ _ _ _ h
  | error err => exact from_io_error_spec _ _ _ _ h

/-- What a successful `read_entries` does to the store. -/
theorem read_entries_spec (parent : Uid) :
    ∀ (entries : List (Except IoErrorKind OsDirEntry)) (st : Store)
      (us : List Uid) (st₂ : Store),
      read_entries parent entries st = some (us, st₂) →
      st₂.paths = st.paths ∧ st₂.os_reads = st.os_reads ∧ st.fresh ≤ st₂.fresh ∧
      (∀ w, w.untouched st.fresh → get_file_by_uid st₂ w = get_file_by_uid st w) ∧
      (FreshInv st → FreshInv st₂) := by
  intro entries
  induction entries with
  | nil =>
    intro st us st₂ h
    simp only [read_entries, Option.some.injEq, Prod.mk.injEq] at h
    rw [← h.2]
    exact ⟨rfl, rfl, Nat.le_refl _, fun _ _ => rfl, fun hi => hi⟩
  | cons e rest ih =>
    intro st us st₂ h
    simp only [read_entries] at h
    rcases hstep : read_entry_step parent e st with _ | ⟨u₁, st₁⟩
    · rw [hstep] at h
      exact absurd h (by simp)
    · rw [hstep] at h
      dsimp only at h
      rcases hrest : read_entries parent rest st₁ with _ | ⟨us₁, stx⟩
      · rw [hrest] at h
        exact absurd h (by simp)
      · rw [hrest] at h
        dsimp only at h
        simp only [Option.some.injEq, Prod.mk.injEq] at h
        have hx : stx = st₂ := h.2
        subst hx
        obtain ⟨hp1, ho1, hf1, hl1, hi1⟩ := read_entry_step_spec _ _ _ _ _ hstep
        obtain ⟨hp2, ho2, hf2, hl2, hi2⟩ := ih st₁ us₁ stx hrest
        refine ⟨hp2.trans hp1, ho2.trans ho1,
          Nat.le_trans (Nat.le_of_lt hf1) hf2, ?_, ?_⟩
        · intro w hw
          have hw1 : w.untouched st₁.fresh :=
            fun ht => Nat.lt_of_lt_of_le (hw ht) (Nat.le_of_lt hf1)
          rw [hl2 w hw1, hl1 w hw]
        · intro hi
          exact hi2 (hi1 hi)

/-- Path resolution touches only the path cache: the entries, the fresh
counter and the `read_dir` counter are untouched. -/
theorem get_path_by_uid_state :
    ∀ (fuel : Nat) (st : Store) (u : Uid) (p : Option String) (st₁ : Store),
      get_path_by_uid fuel st u = PathRes.ret p st₁ →
      st₁.files = st.files ∧ st₁.fresh = st.fresh ∧ st₁.os_reads = st.os_reads := by
  intro fuel
  induction fuel with
  | zero =>
    intro st u p st₁ h
    exact absurd h (by simp [get_path_by_uid])
  | succ fuel ih =>
    intro st u p st₁ h
    rw [get_path_by_uid] at h
    rcases hc : get_cached_path st u with _ | q
    · rw [hc] at h
      dsimp only at h
      rcases hfu : get_file_by_uid st u with _ | file
      · rw [hfu] at h
        dsimp only at h
        obtain ⟨hp, hst⟩ := PathRes.ret.inj h
        rw [← hst]
        exact ⟨rfl, rfl, rfl⟩
      · rw [hfu] at h
        dsimp only at h
        rw [get_path_by_file_aux] at h
        rcases hpar : file.parent with _ | par
        · rw [hpar] at h
          dsimp only at h
          by_cases hroot : (file.uid == Uid.ROOT) = true
          · rw [if_pos hroot] at h
            dsimp only at h
            obtain ⟨hp, hst⟩ := PathRes.ret.inj h
            rw [← hst]
            exact ⟨rfl, rfl, rfl⟩
          · rw [if_neg hroot] at h
            dsimp only at h
            obtain ⟨hp, hst⟩ := PathRes.ret.inj h
            rw [← hst]
            exact ⟨rfl, rfl, rfl⟩
        · rw [hpar] at h
          dsimp only at h
          rcases hrec : get_path_by_uid fuel st par with _ | _ | ⟨q, stx⟩
          · rw [hrec] at h
            exact absurd h (by simp)
          · rw [hrec] at h
            exact absurd h (by simp)
          · rw [hrec] at h
            obtain ⟨hfx, hgx, hox⟩ := ih st par q stx hrec
            rcases q with _ | path
            · dsimp only at h
              exact absurd h (by simp)
            · dsimp only at h
              obtain ⟨hp, hst⟩ := PathRes.ret.inj h
              rw [← hst]
              exact ⟨hfx, hgx, hox⟩
    · rw [hc] at h
      dsimp only at h
      obtain ⟨hp, hst⟩ := PathRes.ret.inj h
      rw [← hst]
      exact ⟨rfl, rfl, rfl⟩

theorem get_file_files_eq (st st' : Store) (h : st'.files = st.files) (u : Uid) :
    get_file_by_uid st' u = get_file_by_uid st u := by
  unfold get_file_by_uid
  rw [h]

theorem fresh_inv_files_eq (st st' : Store) (hf : st'.files = st.files)
    (hn : st'.fresh = st.fresh) (h : FreshInv st) : FreshInv st' := by
  intro p hp
  rw [hf] at hp
  rw [hn]
  exact h p hp

theorem lookup_some_untouched (st : Store) (u : Uid) (f : File) (hinv : FreshInv st)
    (h : get_file_by_uid st u = some f) : u.untouched st.fresh := by
  unfold get_file_by_uid at h
  rcases hf : st.files.find? (fun p => p.1 == u) with _ | q
  · rw [hf] at h
    exact absurd h (by simp)
  · have hq := List.find?_some hf
    have hmem := List.mem_of_find?_eq_some hf
    have hq1 : q.1 = u := by simpa using hq
    rw [← hq1]
    exact hinv q hmem

/-- `init_children` is a strict no-op (children present, or not a directory,
e.g. a synthetic entry). -/
theorem init_children_noop (fuel : Nat) (os : Os) (st : Store) (uid : Uid) (f : File)
    (h1 : get_file_by_uid st uid = some f)
    (h2 : (f.children.isSome || !f.is_dir) = true) :
    init_children fuel os st uid = some st := by
  rw [init_children, h1]
  dsimp only
  rw [if_pos h2]

/-! ### C5 -/

/-- C5: directory expansion is idempotent.  First conjunct: when the entry's
`children` are already present or the entry is not a directory (synthetic
entries included, since `is_dir` is false for them), `init_children` returns
the store unchanged — in particular `os_reads` is unchanged, i.e. no OS
directory read happens, and the children list is untouched.  Second
conjunct: after any successful call, a repeated call (with any recursion
budget) returns the very same store unchanged, so `children` transitions
`None → Some` at most once and only the first call does work. -/
theorem c5_init_children_idempotent :
    (∀ (fuel : Nat) (os : Os) (st : Store) (uid : Uid) (f : File),
      get_file_by_uid st uid = some f →
      (f.children.isSome || !f.is_dir) = true →
      init_children fuel os st uid = some st) ∧
    (∀ (fuel fuel' : Nat) (os : Os) (st : Store) (uid : Uid) (st' : Store),
      FreshInv st → init_children fuel os st uid = some st' →
      init_children fuel' os st' uid = some st') := by
  refine ⟨init_children_noop, ?_⟩
  intro fuel fuel' os st uid st' hinv h
  rw [init_children] at h
  rcases hfu : get_file_by_uid st uid with _ | f
  · rw [hfu] at h
    exact absurd h (by simp)
  · rw [hfu] at h
    dsimp only at h
    by_cases hskip : (f.children.isSome || !f.is_dir) = true
    · rw [if_pos hskip] at h
      have hst : st = st' := Option.some.inj h
      rw [← hst]
      exact init_children_noop fuel' os st uid f hfu hskip
    · rw [if_neg hskip] at h
      rcases hpath : get_path_by_uid fuel st uid with _ | _ | ⟨q, st₁⟩
      · rw [hpath] at h
        exact absurd h (by simp)
      · rw [hpath] at h
        exact absurd h (by simp)
      · rw [hpath] at h
        rcases q with _ | sp
        · dsimp only at h
          exact absurd h (by simp)
        · dsimp only at h
          obtain ⟨hfiles1, hfresh1, _⟩ := get_path_by_uid_state fuel st uid (some sp) st₁ hpath
          set st₂ : Store := { st₁ with os_reads := st₁.os_reads + 1 } with hst₂
          have hfiles2 : st₂.files = st.files := hfiles1
          have hfresh2 : st₂.fresh = st.fresh := hfresh1
          have hinv2 : FreshInv st₂ := fresh_inv_files_eq st st₂ hfiles2 hfresh2 hinv
          have hfu2 : get_file_by_uid st₂ uid = some f := by
            rw [get_file_files_eq st st₂ hfiles2]
            exact hfu
          have huntouched : uid.untouched st₂.fresh :=
            lookup_some_untouched st₂ uid f hinv2 hfu2
          cases hread : os.read_dir sp with
          | ok entries =>
            rw [hread] at h
            dsimp only at h
            rcases hre : read_entries uid entries st₂ with _ | ⟨result, st₃⟩
            · rw [hre] at h
              exact absurd h (by simp)
            · rw [hre] at h
              dsimp only at h
              have hst' : st₃.update_file uid
                  (fun f => { f with children := some result }) = st' :=
                Option.some.inj h
              obtain ⟨_, _, _, hlook3, _⟩ := read_entries_spec uid entries st₂ result st₃ hre
              have hfu3 : get_file_by_uid st₃ uid = some f := by
                rw [hlook3 uid huntouched]
                exact hfu2
              have hfu' : get_file_by_uid st' uid =
                  some { f with children := some result } := by
                rw [← hst']
                rw [get_file_update_self]
                rw [hfu3]
                rfl
              exact init_children_noop fuel' os st' uid _ hfu' (by simp)
          | error e =>
            rw [hread] at h
            dsimp only at h
            rcases hio : from_io_error e st₂ with _ | ⟨err_uid, st₃⟩
            · rw [hio] at h
              exact absurd h (by simp)
            · rw [hio] at h
              dsimp only at h
              have hst' : st₃.update_file uid
                  (fun f => { f with children := some [err_uid] }) = st' :=
                Option.some.inj h
              obtain ⟨_, _, _, hlook3, _⟩ := from_io_error_spec e st₂ err_uid st₃ hio
              have hfu3 : get_file_by_uid st₃ uid = some f := by
                rw [hlook3 uid huntouched]
                exact hfu2
              have hfu' : get_file_by_uid st' uid =
                  some { f with children := some [err_uid] } := by
                rw [← hst']
                rw [get_file_update_self]
                rw [hfu3]
                rfl
              exact init_children_noop fuel' os st' uid _ hfu' (by simp)

/-- Oracle for the C5 witness: `/d` holds one regular file `x`. -/
def c5_os : Os :=
  ⟨fun p =>
    if p == "/d" then
      Except.ok [Except.ok
        { name_utf8 := true
          name := "x"
          meta := Except.ok
            { size := 3, last_modified := 0, file_type := FileType.file,
              file_ext := none } }]
    else Except.error IoErrorKind.permission_denied⟩

/-- Store for the C5 witness: one unexpanded directory with a cached path. -/
def c5_store : Store :=
  { files := [(⟨0, 2⟩,
      { parent := none, uid := ⟨0, 2⟩, name := "d", last_modified := 0,
        size := 0, recursive_size := none, file_type := FileType.dir,
        file_ext := none, children := none })],
    paths := [(⟨0, 2⟩, "/d")], fresh := 5, os_reads := 0 }

/-- C5 witness: a concrete first expansion followed by a second call that is
a strict no-op. -/
theorem c5_init_children_idempotent_witness :
    ∃ st', init_children 1 c5_os c5_store ⟨0, 2⟩ = some st' ∧
      init_children 1 c5_os st' ⟨0, 2⟩ = some st' := by
  obtain ⟨st', hst⟩ : ∃ r, init_children 1 c5_os c5_store ⟨0, 2⟩ = some r := by
    cases hr : init_children 1 c5_os c5_store ⟨0, 2⟩ with
    | none => exact absurd hr (by decide)
    | some r => exact ⟨r, rfl⟩
  exact ⟨st', hst,
    c5_init_children_idempotent.2 1 1 c5_os c5_store ⟨0, 2⟩ st'
      (by unfold FreshInv Uid.untouched; decide) hst⟩

/-! ### Table layout engine (`calc_table_column_widths` from `src/print.rs`) -/

/-- `chars().count()` of a cell. -/
def char_len (s : String) : Nat := s.length

/-- One row's contribution to `max_column_widths`: a row of full length
updates every column, a shorter row updates all but its last (spanning)
cell.  An empty row panics (`0..(0-1)` underflows), and a row more than one
longer than the header row panics with an out-of-bounds index. -/
def update_max_widths (maxw : List Nat) (row : List String) : Option (List Nat) :=
  let ws := row.map char_len
  if ws.length == maxw.length then
    some (List.zipWith max maxw ws)
  else if row.length == 0 then none
  else if maxw.length + 1 < row.length then none
  else
    some (List.zipWith max (maxw.take (ws.length - 1)) (ws.take (ws.length - 1))
      ++ maxw.drop (ws.length - 1))

/-- The fold of `update_max_widths` over the non-header rows. -/
def calc_max_widths : List (List String) → List Nat → Option (List Nat)
  | [], maxw => some maxw
  | row :: rest, maxw =>
    match update_max_widths maxw row with
    | none => none
    | some maxw => calc_max_widths rest maxw

/-- One pass of the shrink loop: every column wider than 16 loses one
character while the outstanding difference lasts; the returned flag is
`did_something`. -/
def shrink_pass : List Nat → Nat → List Nat × Nat × Bool
  | [], diff => ([], diff, false)
  | w :: ws, diff =>
    if w > 16 && diff > 0 then
      ((w - 1) :: (shrink_pass ws (diff - 1)).1, (shrink_pass ws (diff - 1)).2.1, true)
    else
      ((w :: (shrink_pass ws diff).1), (shrink_pass ws diff).2.1,
        (shrink_pass ws diff).2.2)

/-- The `while diff > 0` loop of `calc_table_column_widths`.  `fuel` bounds
the number of passes; `none` models non-termination (never reached: each
productive pass strictly decreases `diff`, see `c7_shrink_terminates`). -/
def shrink_loop : Nat → List Nat → Nat → Option (List Nat)
  | 0, _, _ => none
  | fuel+1, ws, diff =>
    if diff == 0 then some ws
    else
      if (shrink_pass ws diff).2.2 then
        shrink_loop fuel (shrink_pass ws diff).1 (shrink_pass ws diff).2.1
      else some (shrink_pass ws diff).1

/-- The min-width section: distribute the deficit with
`(deficit / M) + 1` added to every column (division by zero panics when
there are no columns). -/
def grow_min_width (ws : List Nat) (deficit : Nat) : Option (List Nat) :=
  if ws.length == 0 then none
  else
    some (ws.map (fun w => w + (deficit / ws.length + 1)))

/-- The per-row-length width vector: the first `n - 1` columns take their
computed widths and the final column absorbs everything left of
`max_total`.  `none` models the panics on `n = 0` (range underflow), an
out-of-bounds column index, and `usize` subtraction underflow. -/
def widths_for_count (maxw : List Nat) (max_total column_margin n : Nat) :
    Option (List Nat) :=
  if n == 0 then none
  else if maxw.length + 1 < n then none
  else
    let front := maxw.take (n - 1)
    let used := front.sum + column_margin * (n + 1)
    if max_total < used then none
    else some (front ++ [max_total - used])

/-- The result loop of `calc_table_column_widths`: one width vector per
observed row length (`col_counts`). -/
def collect_width_vectors (maxw : List Nat) (max_total column_margin : Nat) :
    List Nat → Option (List (Nat × List Nat))
  | [] => some []
  | n :: rest =>
    match widths_for_count maxw max_total column_margin n with
    | none => none
    | some ws =>
      match collect_width_vectors maxw max_total column_margin rest with
      | none => none
      | some l => some ((n, ws) :: l)

/-- `calc_table_column_widths` from `src/print.rs`: raw widths, the
max-width shrink loop, the min-width growth, then one width vector per
observed row length.  The shrink loop runs with fuel `diff + 1`, which is
provably enough (`c7_shrink_terminates`). -/
def calc_table_column_widths (table_contents : List (List String))
    (max_width min_width : Option Nat) (column_margin : Nat) :
    Option (List (Nat × List Nat)) :=
  if (match max_width, min_width with
      | some t, some m => decide (t < m)
      | _, _ => false) then none
  else
    match table_contents with
    | [] => none
    | row0 :: rest =>
      match calc_max_widths rest (row0.map char_len) with
      | none => none
      | some maxw1 =>
        let total1 := maxw1.sum + column_margin * (maxw1.length + 1)
        match
          (match max_width with
           | some w =>
             if w < total1 then shrink_loop (total1 - w + 1) maxw1 (total1 - w)
             else some maxw1
           | none => some maxw1) with
        | none => none
        | some maxw2 =>
          let total2 := maxw2.sum + column_margin * (maxw2.length + 1)
          match
            (match min_width with
             | some w => if total2 < w then grow_min_width maxw2 (w - total2) else some maxw2
             | none => some maxw2) with
          | none => none
          | some maxw3 =>
            let total3 := maxw3.sum + column_margin * (maxw3.length + 1)
            let col_counts := ((row0 :: rest).map List.length).dedup
            collect_width_vectors maxw3 total3 column_margin col_counts

theorem shrink_pass_diff_le : ∀ (ws : List Nat) (d : Nat), (shrink_pass ws d).2.1 ≤ d := by
  intro ws
  induction ws with
  | nil => intro d; exact Nat.le_refl d
  | cons w ws ih =>
    intro d
    rw [shrink_pass]
    split
    · exact Nat.le_trans (ih (d - 1)) (Nat.sub_le d 1)
    · exact ih d

theorem shrink_pass_did_lt : ∀ (ws : List Nat) (d : Nat),
    (shrink_pass ws d).2.2 = true → (shrink_pass ws d).2.1 < d := by
  intro ws
  induction ws with
  | nil => intro d h; exact absurd h (by simp [shrink_pass])
  | cons w ws ih =>
    intro d h
    rw [shrink_pass] at h ⊢
    split at h
    · next hc =>
      rw [if_pos hc]
      have hd : 0 < d := by
        have hc' : 16 < w ∧ 0 < d := by simpa using hc
        exact hc'.2
      exact Nat.lt_of_le_of_lt (shrink_pass_diff_le ws (d - 1)) (Nat.sub_lt hd Nat.one_pos)
    · next hc =>
      rw [if_neg hc]
      exact ih d h

theorem shrink_pass_not_did : ∀ (ws : List Nat) (d : Nat),
    (shrink_pass ws d).2.2 = false →
    (shrink_pass ws d).1 = ws ∧ (shrink_pass ws d).2.1 = d := by
  intro ws
  induction ws with
  | nil => intro d _; exact ⟨rfl, rfl⟩
  | cons w ws ih =>
    intro d h
    rw [shrink_pass] at h ⊢
    split at h
    · simp at h
    · next hc =>
      obtain ⟨h1, h2⟩ := ih d h
      rw [if_neg hc]
      exact ⟨by rw [h1], h2⟩

theorem shrink_pass_not_did_floor : ∀ (ws : List Nat) (d : Nat), 0 < d →
    (shrink_pass ws d).2.2 = false → ∀ w ∈ ws, w ≤ 16 := by
  intro ws
  induction ws with
  | nil => intro d _ _ w hw; cases hw
  | cons w ws ih =>
    intro d hd h v hv
    rw [shrink_pass] at h
    split at h
    · simp at h
    · next hc =>
      have hw16 : w ≤ 16 := by
        by_contra hgt
        exact hc (by simp; omega)
      rcases List.mem_cons.mp hv with hv | hv
      · exact hv ▸ hw16
      · exact ih d hd h v hv

theorem shrink_pass_sum : ∀ (ws : List Nat) (d : Nat),
    (shrink_pass ws d).1.sum + d = ws.sum + (shrink_pass ws d).2.1 := by
  intro ws
  induction ws with
  | nil => intro d; rfl
  | cons w ws ih =>
    intro d
    rw [shrink_pass]
    split
    · next hc =>
      simp only [List.sum_cons]
      have hrec := ih (d - 1)
      have hfacts : 16 < w ∧ 0 < d := by simpa using hc
      omega
    · next hc =>
      simp only [List.sum_cons]
      have hrec := ih d
      omega

theorem shrink_pass_rel : ∀ (ws : List Nat) (d : Nat),
    List.Forall₂ (fun a b => b ≤ a ∧ min a 16 ≤ b) ws (shrink_pass ws d).1 := by
  intro ws
  induction ws with
  | nil => intro d; exact List.Forall₂.nil
  | cons w ws ih =>
    intro d
    rw [shrink_pass]
    split
    · next hc =>
      have hfacts : 16 < w ∧ 0 < d := by simpa using hc
      exact List.Forall₂.cons ⟨Nat.sub_le w 1, by omega⟩ (ih (d - 1))
    · exact List.Forall₂.cons ⟨Nat.le_refl _, Nat.min_le_left _ _⟩ (ih d)

theorem shrink_rel_refl : ∀ ws : List Nat,
    List.Forall₂ (fun a b => b ≤ a ∧ min a 16 ≤ b) ws ws := by
  intro ws
  induction ws with
  | nil => exact List.Forall₂.nil
  | cons w ws ih => exact List.Forall₂.cons ⟨Nat.le_refl _, Nat.min_le_left _ _⟩ ih

theorem shrink_rel_trans : ∀ {ws ws₁ ws₂ : List Nat},
    List.Forall₂ (fun a b => b ≤ a ∧ min a 16 ≤ b) ws ws₁ →
    List.Forall₂ (fun a b => b ≤ a ∧ min a 16 ≤ b) ws₁ ws₂ →
    List.Forall₂ (fun a b => b ≤ a ∧ min a 16 ≤ b) ws ws₂ := by
  intro ws ws₁ ws₂ h1
  induction h1 generalizing ws₂ with
  | nil =>
    intro h2
    cases h2
    exact List.Forall₂.nil
  | cons hab h1 ih =>
    intro h2
    cases h2 with
    | cons hbc h2 => exact List.Forall₂.cons (by omega) (ih h2)

theorem shrink_loop_rel : ∀ (fuel : Nat) (ws : List Nat) (d : Nat) (ws' : List Nat),
    shrink_loop fuel ws d = some ws' →
    List.Forall₂ (fun a b => b ≤ a ∧ min a 16 ≤ b) ws ws' := by
  intro fuel
  induction fuel with
  | zero => intro ws d ws' h; exact absurd h (by simp [shrink_loop])
  | succ fuel ih =>
    intro ws d ws' h
    rw [shrink_loop] at h
    split at h
    · rw [← Option.some.inj h]
      exact shrink_rel_refl ws
    · split at h
      · exact shrink_rel_trans (shrink_pass_rel ws d) (ih _ _ _ h)
      · rw [← Option.some.inj h]
        exact shrink_pass_rel ws d

theorem shrink_loop_stop : ∀ (fuel : Nat) (ws : List Nat) (d : Nat) (ws' : List Nat),
    shrink_loop fuel ws d = some ws' →
    ws'.sum + d = ws.sum ∨ ∀ w ∈ ws', w ≤ 16 := by
  intro fuel
  induction fuel with
  | zero => intro ws d ws' h; exact absurd h (by simp [shrink_loop])
  | succ fuel ih =>
    intro ws d ws' h
    rw [shrink_loop] at h
    split at h
    · next hz =>
      have hd : d = 0 := by simpa using hz
      rw [← Option.some.inj h, hd]
      exact Or.inl rfl
    · next hz =>
      split at h
      · next hdid =>
        rcases ih _ _ _ h with hsum | hfloor
        · have hps := shrink_pass_sum ws d
          exact Or.inl (by omega)
        · exact Or.inr hfloor
      · next hdid =>
        have hdid' : (shrink_pass ws d).2.2 = false := by
          cases hb : (shrink_pass ws d).2.2
          · rfl
          · exact absurd hb hdid
        obtain ⟨h1, _⟩ := shrink_pass_not_did ws d hdid'
        rw [← Option.some.inj h, h1]
        have hd : 0 < d := by
          rcases Nat.eq_zero_or_pos d with hz0 | hpos
          · exact absurd (by simpa using hz0 : (d == 0) = true) hz
          · exact hpos
        exact Or.inr (shrink_pass_not_did_floor ws d hd hdid')

theorem shrink_loop_total : ∀ (fuel : Nat) (ws : List Nat) (d : Nat), d < fuel →
    ∃ ws', shrink_loop fuel ws d = some ws' := by
  intro fuel
  induction fuel with
  | zero => intro ws d h; exact absurd h (Nat.not_lt_zero d)
  | succ fuel ih =>
    intro ws d h
    rw [shrink_loop]
    by_cases hz : (d == 0) = true
    · rw [if_pos hz]
      exact ⟨ws, rfl⟩
    · rw [if_neg hz]
      cases hdid : (shrink_pass ws d).2.2 with
      | false =>
        rw [if_neg Bool.false_ne_true]
        exact ⟨(shrink_pass ws d).1, rfl⟩
      | true =>
        rw [if_pos rfl]
        have hlt : (shrink_pass ws d).2.1 < d := shrink_pass_did_lt ws d hdid
        exact ih (shrink_pass ws d).1 (shrink_pass ws d).2.1
          (Nat.lt_of_lt_of_le hlt (Nat.lt_succ_iff.mp h))

theorem shrink_pass_full : ∀ (ws : List Nat) (d : Nat),
    ws.countP (fun w => decide (16 < w)) ≤ d →
    shrink_pass ws d = (ws.map (fun w => if 16 < w then w - 1 else w),
      d - ws.countP (fun w => decide (16 < w)),
      decide (0 < ws.countP (fun w => decide (16 < w)))) := by
  intro ws
  induction ws with
  | nil => intro d _; rfl
  | cons w ws ih =>
    intro d hcount
    rw [shrink_pass]
    by_cases hw : 16 < w
    · have hcount' : ws.countP (fun w => decide (16 < w)) + 1 ≤ d := by
        simpa [List.countP_cons, hw] using hcount
      have hd : 0 < d := by omega
      rw [if_pos (by simp [hw, hd])]
      rw [ih (d - 1) (by omega)]
      simp only [List.countP_cons, List.map_cons, if_pos hw]
      simp [hw]
      omega
    · have hcount' : ws.countP (fun w => decide (16 < w)) ≤ d := by
        simpa [List.countP_cons, hw] using hcount
      rw [if_neg (by simp [hw])]
      rw [ih d hcount']
      simp [List.countP_cons, hw]

/-! ### C7 -/

/-- C7: the column-shrinking phase terminates and respects the floor of 16.
First conjunct: fuel `diff + 1` (exactly what `calc_table_column_widths`
supplies) always suffices, so the `while diff > 0` loop never runs forever.
Second conjunct: shrinking is pointwise monotone and never takes a column
below `min(start, 16)`; in particular a column above 16 never drops below
16 and a column at or below 16 is never touched.  Third conjunct: the loop
stops exactly when the requested difference has been fully absorbed
(`sum' + diff = sum`, i.e. the total now fits `max_width`) or every column
is at the floor (no column can shrink further).  Fourth conjunct: one pass
removes exactly one character from every column exceeding 16 whenever the
outstanding difference allows it. -/
theorem c7_shrink_terminates :
    (∀ (ws : List Nat) (d fuel : Nat), d < fuel →
      ∃ ws', shrink_loop fuel ws d = some ws') ∧
    (∀ (fuel : Nat) (ws : List Nat) (d : Nat) (ws' : List Nat),
      shrink_loop fuel ws d = some ws' →
      List.Forall₂ (fun a b => b ≤ a ∧ min a 16 ≤ b) ws ws') ∧
    (∀ (fuel : Nat) (ws : List Nat) (d : Nat) (ws' : List Nat),
      shrink_loop fuel ws d = some ws' →
      ws'.sum + d = ws.sum ∨ ∀ w ∈ ws', w ≤ 16) ∧
    (∀ (ws : List Nat) (d : Nat), ws.countP (fun w => decide (16 < w)) ≤ d →
      shrink_pass ws d = (ws.map (fun w => if 16 < w then w - 1 else w),
        d - ws.countP (fun w => decide (16 < w)),
        decide (0 < ws.countP (fun w => decide (16 < w))))) :=
  ⟨fun ws d fuel h => shrink_loop_total fuel ws d h,
   shrink_loop_rel, shrink_loop_stop, shrink_pass_full⟩

/-- C7 witness: the spec's example — columns {30, 30, 20} under
`max_width = 40` with a natural width of 80, i.e. an outstanding difference
of 40 — terminates with the supplied fuel and satisfies the floor relation. -/
theorem c7_shrink_terminates_witness :
    40 < 41 ∧ ∃ ws', shrink_loop 41 [30, 30, 20] 40 = some ws' ∧
      List.Forall₂ (fun a b => b ≤ a ∧ min a 16 ≤ b) [30, 30, 20] ws' := by
  refine ⟨by decide, ?_⟩
  obtain ⟨ws', h⟩ := c7_shrink_terminates.1 [30, 30, 20] 40 41 (by decide)
  exact ⟨ws', h, c7_shrink_terminates.2.1 41 [30, 30, 20] 40 ws' h⟩

/-! ### C8 -/

theorem sum_map_add_const (ws : List Nat) (d : Nat) :
    (ws.map (fun w => w + d)).sum = ws.sum + ws.length * d := by
  induction ws with
  | nil => simp
  | cons w ws ih =>
    simp only [List.map_cons, List.sum_cons, List.length_cons, ih]
    ring

/-- C8, counterexample: the claim says each column grows by exactly
`ceil((min_width - max_total) / M)`.  With one empty column (`max_total = 0`,
`M = 1`) and `min_width = 4`, the ceiling is `4`, but the code computes
`(4 - 0) / 1 + 1 = 5` and the resulting column width is 5, not 4. -/
theorem c8_min_width_cex :
    calc_table_column_widths [[""]] none (some 4) 0 = some [(1, [5])] ∧
    (4 + 1 - 1) / 1 = 4 ∧ (5 : Nat) ≠ 4 :=
  ⟨by decide, by decide, by decide⟩

/-- C8, amended: when a `min_width` bound is supplied and the total width is
below it, every column grows by exactly `(min_width - max_total) / M + 1`
(one more than floor division — which exceeds the ceiling when `M` divides
the deficit), and the recomputed total is at least `min_width` (in fact
strictly greater). -/
theorem c8_min_width_amended :
    ∀ (ws : List Nat) (margin min_width : Nat), 0 < ws.length →
      ws.sum + margin * (ws.length + 1) < min_width →
      ∃ ws', grow_min_width ws (min_width - (ws.sum + margin * (ws.length + 1)))
          = some ws' ∧
        ws' = ws.map (fun w =>
          w + ((min_width - (ws.sum + margin * (ws.length + 1))) / ws.length + 1)) ∧
        min_width ≤ ws'.sum + margin * (ws'.length + 1) := by
  intro ws margin min_width hlen hlt
  have hne : (ws.length == 0) = false := by
    simp only [beq_eq_false_iff_ne]
    omega
  refine ⟨_, by rw [grow_min_width, hne]; rfl, rfl, ?_⟩
  rw [List.length_map, sum_map_add_const]
  have hdm := Nat.div_add_mod (min_width - (ws.sum + margin * (ws.length + 1))) ws.length
  have hmod := Nat.mod_lt (min_width - (ws.sum + margin * (ws.length + 1))) hlen
  have hmul : ws.length * ((min_width - (ws.sum + margin * (ws.length + 1))) / ws.length + 1)
      = ws.length * ((min_width - (ws.sum + margin * (ws.length + 1))) / ws.length)
        + ws.length := by ring
  omega

/-- C8 witness: the amended theorem at columns `[2]`, margin 1,
`min_width = 10`: the deficit is 6, the column grows by `6 / 1 + 1 = 7`
to 9, and the recomputed total `9 + 1 * 2 = 11` is at least 10. -/
theorem c8_min_width_amended_witness :
    0 < [2].length ∧
    ∃ ws', grow_min_width [2] (10 - ([2].sum + 1 * ([2].length + 1))) = some ws' ∧
      ws' = [2].map (fun w => w + ((10 - ([2].sum + 1 * ([2].length + 1))) / [2].length + 1)) ∧
      10 ≤ ws'.sum + 1 * (ws'.length + 1) :=
  ⟨by decide, c8_min_width_amended [2] 1 10 (by decide) (by decide)⟩

/-! ### C10 -/

theorem widths_for_count_spec (maxw : List Nat) (T margin n : Nat) (ws : List Nat)
    (h : widths_for_count maxw T margin n = some ws) :
    ws.sum + margin * (n + 1) = T := by
  simp only [widths_for_count] at h
  split at h
  · exact Option.noConfusion h
  · split at h
    · exact Option.noConfusion h
    · split at h
      · exact Option.noConfusion h
      · next hle =>
        rw [← Option.some.inj h]
        simp only [List.sum_append, List.sum_cons, List.sum_nil]
        omega

theorem collect_width_vectors_spec (maxw : List Nat) (T margin : Nat) :
    ∀ (ns : List Nat) (r : List (Nat × List Nat)),
      collect_width_vectors maxw T margin ns = some r →
      ∀ p ∈ r, p.2.sum + margin * (p.1 + 1) = T := by
  intro ns
  induction ns with
  | nil =>
    intro r h p hp
    rw [← Option.some.inj h] at hp
    cases hp
  | cons n rest ih =>
    intro r h p hp
    rw [collect_width_vectors] at h
    rcases hw : widths_for_count maxw T margin n with _ | ws
    · rw [hw] at h
      exact Option.noConfusion h
    · rw [hw] at h
      dsimp only at h
      rcases hrest : collect_width_vectors maxw T margin rest with _ | l
      · rw [hrest] at h
        exact Option.noConfusion h
      · rw [hrest] at h
        dsimp only at h
        rw [← Option.some.inj h] at hp
        rcases List.mem_cons.mp hp with hp | hp
        · rw [hp]
          exact widths_for_count_spec maxw T margin n ws hw
        · exact ih l hrest p hp

/-- C10: every width vector produced by `calc_table_column_widths` spans the
same grand total — for each observed row length `N`, the vector for `N`
satisfies `sum(widths_N) + margin*(N+1) = T` for one common `T`, so every
row renders at the identical table width, the final column of a shorter row
absorbing all spanned width. -/
theorem c10_uniform_table_width :
    ∀ (contents : List (List String)) (mw minw : Option Nat) (margin : Nat)
      (result : List (Nat × List Nat)),
      calc_table_column_widths contents mw minw margin = some result →
      ∃ T, ∀ p ∈ result, p.2.sum + margin * (p.1 + 1) = T := by
  intro contents mw minw margin result h
  simp only [calc_table_column_widths] at h
  split at h
  · exact Option.noConfusion h
  · split at h
    · exact Option.noConfusion h
    · next row0 rest =>
      rcases hmw : calc_max_widths rest (row0.map char_len) with _ | maxw1
      · rw [hmw] at h
        exact Option.noConfusion h
      · rw [hmw] at h
        dsimp only at h
        split at h
        · exact Option.noConfusion h
        · next maxw2 hmw2 =>
          split at h
          · exact Option.noConfusion h
          · next maxw3 hmw3 =>
            exact ⟨maxw3.sum + margin * (maxw3.length + 1),
              collect_width_vectors_spec _ _ _ _ _ h⟩

/-- C10 witness: a table with a rowspan row — rows `["ab","cd"]` and `["x"]`
with margin 2 — yields vectors `[2,2]` (length 2) and `[6]` (length 1),
both spanning the common total 10. -/
theorem c10_uniform_table_width_witness :
    calc_table_column_widths [["ab", "cd"], ["x"]] none none 2
      = some [(2, [2, 2]), (1, [6])] ∧
    ∃ T, ∀ p ∈ [((2 : Nat), [2, 2]), ((1 : Nat), ([6] : List Nat))],
      p.2.sum + 2 * (p.1 + 1) = T :=
  ⟨by decide, c10_uniform_table_width [["ab", "cd"], ["x"]] none none 2
    [(2, [2, 2]), (1, [6])] (by decide)⟩

/-! ### C9 -/

/-- `Alignment` from `src/print.rs` (named `CellAlignment` here because
Mathlib already declares an `Alignment`). -/
inductive CellAlignment where
  | left
  | center
  | right
  deriving DecidableEq

/-- The per-cell rendering of `print_row` from `src/print.rs` (colors
dropped: they style characters but never change which characters are
produced).  A fitting cell is padded per its alignment; an overflowing cell
is rendered as `prefix ++ "..." ++ suffix` over the cell's characters.  The
`width < 3` case models the `usize` underflow panic of `widths[i] - 3`
(debug) / the out-of-bounds slice (release) flagged by the source's
`TODO: how do I make sure that widths[i] >= 3?`. -/
def print_row_cell (content : String) (width : Nat) (al : CellAlignment) : Option String :=
  let chars := content.data
  let curr_content_len := chars.length
  if curr_content_len ≤ width then
    let left_margin :=
      match al with
      | CellAlignment.left => 0
      | CellAlignment.center => (width - curr_content_len) >>> 1
      | CellAlignment.right => width - curr_content_len
    let right_margin := width - curr_content_len - left_margin
    some (String.mk (List.replicate left_margin ' ' ++ chars
      ++ List.replicate right_margin ' '))
  else
    if width < 3 then none
    else
      let first_half := (width - 3) >>> 1
      let last_half := width - 3 - first_half
      some (String.mk (chars.take first_half ++ "...".data
        ++ chars.drop (curr_content_len - last_half)))

/-- C9, counterexample: the claim says cell rendering never truncates to
fewer than 3 characters "for every width the engine can assign".  The
engine can assign a width below 3: with margin 0, header row `["a","b"]`
and a spanning one-cell row `["wxyz"]`, the rowspan vector for length-1 rows
is `[2]` (the spanning cell of a short row never contributes to the raw
column widths).  Rendering the 4-character cell at width 2 then hits the
`widths[i] - 3` underflow and panics (`none`) instead of producing any
`prefix + "..." + suffix` form. -/
theorem c9_cell_truncation_cex :
    calc_table_column_widths [["a", "b"], ["wxyz"]] none none 0
      = some [(2, [1, 1]), (1, [2])] ∧
    print_row_cell "wxyz" 2 CellAlignment.left = none :=
  ⟨by decide, by decide⟩

/-- C9, amended: for widths of at least 3, an overflowing cell renders as
`prefix ++ "..." ++ suffix` where the prefix takes the first
`(width - 3) / 2` characters and the suffix the last
`width - 3 - (width - 3) / 2` characters of the content, and
`|prefix| + |suffix| + 3 = width`; slicing is performed on whole characters
(`chars()`), so no (multi-byte) character is ever split.  For widths below
3, rendering an overflowing cell panics. -/
theorem c9_cell_truncation_amended :
    ∀ (content : String) (width : Nat) (al : CellAlignment),
      3 ≤ width → width < content.data.length →
      print_row_cell content width al
        = some (String.mk (content.data.take ((width - 3) >>> 1) ++ "...".data
            ++ content.data.drop (content.data.length
              - (width - 3 - ((width - 3) >>> 1))))) ∧
      (content.data.take ((width - 3) >>> 1)).length = (width - 3) >>> 1 ∧
      (content.data.drop (content.data.length
        - (width - 3 - ((width - 3) >>> 1)))).length
        = width - 3 - ((width - 3) >>> 1) ∧
      ((width - 3) >>> 1) + (width - 3 - ((width - 3) >>> 1)) + 3 = width := by
  intro content width al h3 hover
  have hdiv : (width - 3) >>> 1 = (width - 3) / 2 := Nat.shiftRight_one _ ▸ rfl
  have hfh : (width - 3) >>> 1 ≤ width - 3 := by
    rw [hdiv]
    exact Nat.div_le_self _ _
  refine ⟨?_, ?_, ?_, ?_⟩
  · simp only [print_row_cell]
    rw [if_neg (by omega)]
    rw [if_neg (by omega)]
  · rw [List.length_take]
    omega
  · rw [List.length_drop]
    omega
  · omega

/-- C9 witness: the amended theorem at an 8-character cell in a width-4
column: one leading character, the ellipsis, then no trailing character. -/
theorem c9_cell_truncation_amended_witness :
    3 ≤ 4 ∧ 4 < "abcdefgh".data.length ∧
    print_row_cell "abcdefgh" 4 CellAlignment.left
      = some (String.mk ("abcdefgh".data.take ((4 - 3) >>> 1) ++ "...".data
          ++ "abcdefgh".data.drop ("abcdefgh".data.length
            - (4 - 3 - ((4 - 3) >>> 1))))) :=
  ⟨by decide, by decide,
    (c9_cell_truncation_amended "abcdefgh" 4 CellAlignment.left
      (by decide) (by decide)).1⟩

/-! ### Nested-content selector (`add_nested_contents` from `src/print.rs`) -/

/-- `ColumnKind` from `src/print/config.rs`. -/
inductive ColumnKind where
  | index
  | name
  | size
  | total_size
  | modified
  | file_type
  | file_ext
  deriving DecidableEq

/-- The fields of `PrintDirConfig` (from `src/print/config.rs`) that
`add_nested_contents` reads. -/
structure PrintDirConfig where
  max_row : Nat
  sort_by : ColumnKind
  sort_reverse : Bool
  show_full_path : Bool
  show_hidden_files : Bool
  max_width : Nat
  min_width : Nat
  deriving DecidableEq

/-- Stable insertion for `sort_by_key` (Rust's `sort_by_key` is a stable
sort; an element is placed after every strictly smaller key and after equal
keys that came earlier). -/
def stable_insert {α : Type} (lt : α → α → Bool) (x : Uid × α) :
    List (Uid × α) → List (Uid × α)
  | [] => [x]
  | y :: ys => if lt y.2 x.2 then y :: stable_insert lt x ys else x :: y :: ys

/-- Stable sort by key, as `Vec::sort_by_key` behaves observationally. -/
def stable_sort_by_key {α : Type} (lt : α → α → Bool) (l : List (Uid × α)) :
    List (Uid × α) :=
  l.foldr (stable_insert lt) []

/-- Pair each file with its sort key (`sort_by_key` forces every lookup;
a missing uid is the usual `unwrap` panic). -/
def keys_by {α : Type} (key : File → α) (st : Store) :
    List Uid → Option (List (Uid × α))
  | [] => some []
  | u :: us =>
    match get_file_by_uid st u with
    | none => none
    | some f =>
      match keys_by key st us with
      | none => none
      | some rest => some ((u, key f) :: rest)

/-- Keys for `ColumnKind::TotalSize`: `get_recursive_size` is effectful, so
the store threads through the key computation. -/
def keys_total_size (fuel : Nat) (os : Os) :
    List Uid → Store → Option (List (Uid × Nat) × Store)
  | [], st => some ([], st)
  | u :: us, st =>
    match get_recursive_size fuel os st u with
    | none => none
    | some (v, st) =>
      match keys_total_size fuel os us st with
      | none => none
      | some (rest, st) => some ((u, v) :: rest, st)

/-- The uid list after sorting, reversed when `reverse` is set. -/
def sorted_uids {α : Type} (lt : α → α → Bool) (reverse : Bool)
    (ks : List (Uid × α)) : List Uid :=
  let r := (stable_sort_by_key lt ks).map Prod.fst
  if reverse then r.reverse else r

/-- `sort_files` from `src/utils.rs`: sort by the selected column's key,
then reverse if requested.  `ColumnKind::Index` is `unreachable!()`. -/
def sort_files (fuel : Nat) (os : Os) (st : Store) (files : List Uid)
    (sort_by : ColumnKind) (reverse : Bool) : Option (List Uid × Store) :=
  match sort_by with
  | ColumnKind.index => none
  | ColumnKind.name =>
    (keys_by (fun f => f.name) st files).map
      (fun ks => (sorted_uids (fun a b => decide (a < b)) reverse ks, st))
  | ColumnKind.size =>
    (keys_by (fun f => f.size) st files).map
      (fun ks => (sorted_uids (fun a b => decide (a < b)) reverse ks, st))
  | ColumnKind.total_size =>
    (keys_total_size fuel os files st).map
      (fun r => (sorted_uids (fun a b => decide (a < b)) reverse r.1, r.2))
  | ColumnKind.modified =>
    (keys_by (fun f => f.last_modified) st files).map
      (fun ks => (sorted_uids (fun a b => decide (a < b)) reverse ks, st))
  | ColumnKind.file_type =>
    (keys_by (fun f => f.file_type.rank) st files).map
      (fun ks => (sorted_uids (fun a b => decide (a < b)) reverse ks, st))
  | ColumnKind.file_ext =>
    (keys_by (fun f => f.file_ext.getD "") st files).map
      (fun ks => (sorted_uids (fun a b => decide (a < b)) reverse ks, st))

/-- `HashMap::insert` on `number_of_children_to_show`, modelled as a
function update. -/
def counts_insert (m : Uid → Nat) (u : Uid) (v : Nat) : Uid → Nat :=
  fun w => if w == u then v else m w

/-- Phase 1 of `add_nested_contents`: reserve one nested row for every
directory child with children while rows remain. -/
def nested_phase1 (fuel : Nat) (os : Os) (show_hidden : Bool) :
    List Uid → (Uid → Nat) → Nat → Store → Option ((Uid → Nat) × Nat × Store)
  | [], m, remaining, st => some (m, remaining, st)
  | c :: cs, m, remaining, st =>
    match get_children_num fuel os st c show_hidden with
    | none => none
    | some (children_num, st) =>
      if children_num > 0 && remaining > 0 then
        nested_phase1 fuel os show_hidden cs (counts_insert m c 1) (remaining - 1) st
      else
        nested_phase1 fuel os show_hidden cs (counts_insert m c 0) remaining st

/-- One round of the fairness loop: grant one more row to every directory
child still below its child count while rows remain. -/
def nested_pass (fuel : Nat) (os : Os) (show_hidden : Bool) :
    List Uid → (Uid → Nat) → Nat → Store → Bool →
    Option ((Uid → Nat) × Nat × Store × Bool)
  | [], m, remaining, st, added => some (m, remaining, st, added)
  | c :: cs, m, remaining, st, added =>
    match get_children_num fuel os st c show_hidden with
    | none => none
    | some (children_num, st) =>
      if remaining > 0 && m c < children_num then
        nested_pass fuel os show_hidden cs (counts_insert m c (m c + 1))
          (remaining - 1) st true
      else
        nested_pass fuel os show_hidden cs m remaining st added

/-- The `loop` of `add_nested_contents`: repeat full passes while at least
4 rows of slack remain and a pass granted something. -/
def nested_loop (fuel : Nat) (os : Os) (show_hidden : Bool) (contents : List Uid) :
    Nat → (Uid → Nat) → Nat → Store → Option ((Uid → Nat) × Nat × Store)
  | 0, _, _, _ => none
  | fuel2+1, m, remaining, st =>
    if remaining < 4 then some (m, remaining, st)
    else
      match nested_pass fuel os show_hidden contents m remaining st false with
      | none => none
      | some (m, remaining, st, added) =>
        if !added then some (m, remaining, st)
        else nested_loop fuel os show_hidden contents fuel2 m remaining st

/-- The per-child body of phase 3 of `add_nested_contents`: the reserved
nested rows of one top-level child (sorted, sliced) and its truncation
marker when its children were cut. -/
def nested_item (fuel : Nat) (os : Os) (cfg : PrintDirConfig) (m : Uid → Nat)
    (c : Uid) (st : Store) : Option (List Uid × List Nat × Store) :=
  if m c > 0 then
    match get_children fuel os st c cfg.show_hidden_files with
    | none => none
    | some (children, st) =>
      match sort_files fuel os st children cfg.sort_by cfg.sort_reverse with
      | none => none
      | some (children, st) =>
        if children.length < m c then none
        else
          let shown := children.take (m c)
          if m c < children.length then
            match message_for_truncated_rows (children.length - m c) st with
            | (trunc_uid, st) =>
              some (shown ++ [trunc_uid], List.replicate (shown.length + 1) 1, st)
          else some (shown, List.replicate shown.length 1, st)
  else some (([] : List Uid), ([] : List Nat), st)

/-- Phase 3 of `add_nested_contents`: emit each top-level row, then its
reserved nested rows and truncation marker. -/
def nested_phase3 (fuel : Nat) (os : Os) (cfg : PrintDirConfig) (m : Uid → Nat) :
    List Uid → Store → Option (List Uid × List Nat × Store)
  | [], st => some ([], [], st)
  | c :: cs, st =>
    match nested_item fuel os cfg m c st with
    | none => none
    | some (nested, nlevels, st) =>
      match nested_phase3 fuel os cfg m cs st with
      | none => none
      | some (rest_uids, rest_levels, st) =>
        some (c :: (nested ++ rest_uids), 0 :: (nlevels ++ rest_levels), st)

/-- `add_nested_contents` from `src/print.rs`.  The `usize` subtraction
`max_row - contents.len()` panics (debug) when `contents` exceeds
`max_row`; the fairness loop runs with fuel `remaining + 1`, enough because
every continuing iteration granted at least one row.  The final collect
maps every produced uid back through `get_file_by_uid(..).unwrap()`. -/
def add_nested_contents (fuel : Nat) (os : Os) (st : Store) (contents : List Uid)
    (cfg : PrintDirConfig) : Option (List Uid × List Nat × Store) :=
  if cfg.max_row < contents.length then none
  else
    match nested_phase1 fuel os cfg.show_hidden_files contents (fun _ => 0)
        (cfg.max_row - contents.length) st with
    | none => none
    | some (m, remaining, st) =>
      match nested_loop fuel os cfg.show_hidden_files contents (remaining + 1)
          m remaining st with
      | none => none
      | some (m, remaining2, st) =>
        match nested_phase3 fuel os cfg m contents st with
        | none => none
        | some (new_contents, nested_levels, st) =>
          if all_children_registered st new_contents then
            some (new_contents, nested_levels, st)
          else none

/-- Oracle for the C2 counterexample store (never consulted: every
directory in the store is already expanded). -/
def c2_os : Os := ⟨fun _ => Except.error IoErrorKind.permission_denied⟩

def c2_dir (i : Nat) : Uid × File :=
  (⟨0, 10 + i⟩,
   { parent := none, uid := ⟨0, 10 + i⟩, name := "d" ++ toString i,
     last_modified := 0, size := 0, recursive_size := none,
     file_type := FileType.dir, file_ext := none,
     children := some [⟨0, 20 + 2 * i⟩, ⟨0, 21 + 2 * i⟩] })

def c2_child (v : Nat) : Uid × File :=
  (⟨0, v⟩,
   { parent := none, uid := ⟨0, v⟩, name := "c" ++ toString v,
     last_modified := 0, size := 1, recursive_size := some 1,
     file_type := FileType.file, file_ext := none, children := none })

def c2_plain (i : Nat) : Uid × File :=
  (⟨0, 15 + i⟩,
   { parent := none, uid := ⟨0, 15 + i⟩, name := "f" ++ toString i,
     last_modified := 0, size := 1, recursive_size := some 1,
     file_type := FileType.file, file_ext := none, children := none })

def c2_store : Store :=
  { files := [c2_dir 0, c2_dir 1, c2_dir 2, c2_dir 3, c2_dir 4,
      c2_plain 0, c2_plain 1,
      c2_child 20, c2_child 21, c2_child 22, c2_child 23, c2_child 24,
      c2_child 25, c2_child 26, c2_child 27, c2_child 28, c2_child 29],
    paths := [], fresh := 40, os_reads := 0 }

def c2_contents : List Uid :=
  [⟨0, 10⟩, ⟨0, 11⟩, ⟨0, 12⟩, ⟨0, 13⟩, ⟨0, 14⟩, ⟨0, 15⟩, ⟨0, 16⟩]

def c2_cfg : PrintDirConfig :=
  { max_row := 12, sort_by := ColumnKind.size, sort_reverse := false,
    show_full_path := false, show_hidden_files := true,
    max_width := 120, min_width := 64 }

/-- C2, counterexample: the claim says the selector's flattened output never
exceeds `max_row` rows including truncation markers.  With 7 top-level
children (so `children_num + 4 = 11 < max_row = 12`, exactly the situation
in which `print_dir` invokes the selector) of which 5 are directories with
2 children each, phase 1 reserves the 5 remaining budget rows, and phase 3
then emits one *unbudgeted* truncation-marker row per cut directory:
7 + 5 + 5 = 17 > 12 rows. -/
theorem c2_nested_budget_cex :
    c2_contents.length + 4 < c2_cfg.max_row ∧
    (add_nested_contents 2 c2_os c2_store c2_contents c2_cfg).map
      (fun r => r.1.length) = some 17 ∧
    c2_cfg.max_row = 12 ∧ 12 < 17 :=
  ⟨by decide, by decide, by decide, by decide⟩

theorem map_agree : ∀ (l : List Uid) (f g : Uid → Nat),
    (∀ u ∈ l, f u = g u) → l.map f = l.map g := by
  intro l
  induction l with
  | nil => intro f g _; rfl
  | cons a l ih =>
    intro f g h
    rw [List.map_cons, List.map_cons, h a (List.mem_cons_self a l),
      ih f g (fun u hu => h u (List.mem_cons_of_mem a hu))]

theorem nested_phase1_bound (fuel : Nat) (os : Os) (sh : Bool) :
    ∀ (todo : List Uid) (m : Uid → Nat) (rem : Nat) (st : Store)
      (m' : Uid → Nat) (rem' : Nat) (st' : Store),
      todo.Nodup →
      nested_phase1 fuel os sh todo m rem st = some (m', rem', st') →
      (todo.map m').sum + rem' ≤ rem ∧ ∀ u, u ∉ todo → m' u = m u := by
  intro todo
  induction todo with
  | nil =>
    intro m rem st m' rem' st' _ h
    have h' := Option.some.inj h
    have hm : m = m' := congrArg Prod.fst h'
    have hr : rem = rem' := congrArg (fun p => p.2.1) h'
    constructor
    · simp [← hr]
    · intro u _
      rw [← hm]
  | cons c cs ih =>
    intro m rem st m' rem' st' hnodup h
    obtain ⟨hc, hnd⟩ := List.nodup_cons.mp hnodup
    rw [nested_phase1] at h
    rcases hcn : get_children_num fuel os st c sh with _ | ⟨n, st₁⟩
    · rw [hcn] at h
      exact Option.noConfusion h
    · rw [hcn] at h
      dsimp only at h
      split at h
      · next hcond =>
        have hcond' : 0 < n ∧ 0 < rem := by simpa using hcond
        obtain ⟨hsum, hstab⟩ := ih _ _ _ _ _ _ hnd h
        constructor
        · rw [List.map_cons, List.sum_cons]
          have hmc : m' c = 1 := by
            rw [hstab c hc]
            simp [counts_insert]
          rw [hmc]
          omega
        · intro u hu
          have hu' : u ∉ cs := fun hin => hu (List.mem_cons_of_mem c hin)
          have hune : u ≠ c := fun he => hu (he ▸ List.mem_cons_self c cs)
          rw [hstab u hu']
          simp [counts_insert, hune]
      · next hcond =>
        obtain ⟨hsum, hstab⟩ := ih _ _ _ _ _ _ hnd h
        constructor
        · rw [List.map_cons, List.sum_cons]
          have hmc : m' c = 0 := by
            rw [hstab c hc]
            simp [counts_insert]
          rw [hmc]
          omega
        · intro u hu
          have hu' : u ∉ cs := fun hin => hu (List.mem_cons_of_mem c hin)
          have hune : u ≠ c := fun he => hu (he ▸ List.mem_cons_self c cs)
          rw [hstab u hu']
          simp [counts_insert, hune]

theorem nested_pass_bound (fuel : Nat) (os : Os) (sh : Bool) :
    ∀ (todo : List Uid) (m : Uid → Nat) (rem : Nat) (st : Store) (b : Bool)
      (m' : Uid → Nat) (rem' : Nat) (st' : Store) (b' : Bool),
      todo.Nodup →
      nested_pass fuel os sh todo m rem st b = some (m', rem', st', b') →
      (todo.map m').sum + rem' ≤ (todo.map m).sum + rem ∧
        ∀ u, u ∉ todo → m' u = m u := by
  intro todo
  induction todo with
  | nil =>
    intro m rem st b m' rem' st' b' _ h
    have h' := Option.some.inj h
    have hm : m = m' := congrArg Prod.fst h'
    have hr : rem = rem' := congrArg (fun p => p.2.1) h'
    constructor
    · simp [← hr, ← hm]
    · intro u _
      rw [← hm]
  | cons c cs ih =>
    intro m rem st b m' rem' st' b' hnodup h
    obtain ⟨hc, hnd⟩ := List.nodup_cons.mp hnodup
    rw [nested_pass] at h
    rcases hcn : get_children_num fuel os st c sh with _ | ⟨n, st₁⟩
    · rw [hcn] at h
      exact Option.noConfusion h
    · rw [hcn] at h
      dsimp only at h
      split at h
      · next hcond =>
        have hcond' : 0 < rem ∧ m c < n := by simpa using hcond
        obtain ⟨hsum, hstab⟩ := ih _ _ _ _ _ _ _ _ hnd h
        have htail : cs.map (counts_insert m c (m c + 1)) = cs.map m := by
          apply map_agree
          intro u hu
          have : u ≠ c := fun he => hc (he ▸ hu)
          simp [counts_insert, this]
        rw [htail] at hsum
        constructor
        · rw [List.map_cons, List.sum_cons, List.map_cons, List.sum_cons]
          have hmc : m' c = m c + 1 := by
            rw [hstab c hc]
            simp [counts_insert]
          rw [hmc]
          omega
        · intro u hu
          have hu' : u ∉ cs := fun hin => hu (List.mem_cons_of_mem c hin)
          have hune : u ≠ c := fun he => hu (he ▸ List.mem_cons_self c cs)
          rw [hstab u hu']
          simp [counts_insert, hune]
      · next hcond =>
        obtain ⟨hsum, hstab⟩ := ih _ _ _ _ _ _ _ _ hnd h
        constructor
        · rw [List.map_cons, List.sum_cons, List.map_cons, List.sum_cons]
          have hmc : m' c = m c := hstab c hc
          rw [hmc]
          omega
        · intro u hu
          exact hstab u (fun hin => hu (List.mem_cons_of_mem c hin))

theorem nested_loop_bound (fuel : Nat) (os : Os) (sh : Bool) (contents : List Uid)
    (hnodup : contents.Nodup) :
    ∀ (fuel2 : Nat) (m : Uid → Nat) (rem : Nat) (st : Store)
      (m' : Uid → Nat) (rem' : Nat) (st' : Store),
      nested_loop fuel os sh contents fuel2 m rem st = some (m', rem', st') →
      (contents.map m').sum + rem' ≤ (contents.map m).sum + rem := by
  intro fuel2
  induction fuel2 with
  | zero =>
    intro m rem st m' rem' st' h
    exact absurd h (by simp [nested_loop])
  | succ fuel2 ih =>
    intro m rem st m' rem' st' h
    rw [nested_loop] at h
    split at h
    · have h' := Option.some.inj h
      have hm : m = m' := congrArg Prod.fst h'
      have hr : rem = rem' := congrArg (fun p => p.2.1) h'
      simp [← hr, ← hm]
    · rcases hpass : nested_pass fuel os sh contents m rem st false
        with _ | ⟨m₁, rem₁, st₁, added⟩
      · rw [hpass] at h
        exact Option.noConfusion h
      · rw [hpass] at h
        dsimp only at h
        obtain ⟨hsum1, _⟩ := nested_pass_bound fuel os sh contents
          m rem st false m₁ rem₁ st₁ added hnodup hpass
        split at h
        · have h' := Option.some.inj h
          have hm : m₁ = m' := congrArg Prod.fst h'
          have hr : rem₁ = rem' := congrArg (fun p => p.2.1) h'
          rw [← hm, ← hr]
          exact hsum1
        · have hrec := ih m₁ rem₁ st₁ m' rem' st' h
          omega

theorem nested_item_len (fuel : Nat) (os : Os) (cfg : PrintDirConfig)
    (m : Uid → Nat) (c : Uid) (st : Store) (nested : List Uid)
    (nlevels : List Nat) (st₂ : Store)
    (h : nested_item fuel os cfg m c st = some (nested, nlevels, st₂)) :
    nested.length ≤ m c + 1 := by
  rw [nested_item] at h
  split at h
  · rcases hch : get_children fuel os st c cfg.show_hidden_files with _ | ⟨children, st₃⟩
    · rw [hch] at h
      exact Option.noConfusion h
    · rw [hch] at h
      dsimp only at h
      rcases hsort : sort_files fuel os st₃ children cfg.sort_by cfg.sort_reverse
        with _ | ⟨children', st₄⟩
      · rw [hsort] at h
        exact Option.noConfusion h
      · rw [hsort] at h
        dsimp only at h
        split at h
        · exact Option.noConfusion h
        · next hlen =>
          have hlen' : m c ≤ children'.length := Nat.le_of_not_lt hlen
          split at h
          · have h' := Option.some.inj h
            have hn : (children'.take (m c) ++
                [(message_for_truncated_rows (children'.length - m c) st₄).1]) = nested :=
              congrArg Prod.fst h'
            rw [← hn]
            rw [List.length_append, List.length_take]
            simp
          · have h' := Option.some.inj h
            have hn : children'.take (m c) = nested := congrArg Prod.fst h'
            rw [← hn, List.length_take]
            omega
  · have h' := Option.some.inj h
    have hn : ([] : List Uid) = nested := congrArg Prod.fst h'
    rw [← hn]
    exact Nat.zero_le _

theorem nested_phase3_len (fuel : Nat) (os : Os) (cfg : PrintDirConfig)
    (m : Uid → Nat) :
    ∀ (todo : List Uid) (st : Store) (out : List Uid) (levels : List Nat)
      (st' : Store),
      nested_phase3 fuel os cfg m todo st = some (out, levels, st') →
      out.length ≤ todo.length + (todo.map m).sum + todo.length := by
  intro todo
  induction todo with
  | nil =>
    intro st out levels st' h
    have h' := Option.some.inj h
    have hn : ([] : List Uid) = out := congrArg Prod.fst h'
    rw [← hn]
    exact Nat.zero_le _
  | cons c cs ih =>
    intro st out levels st' h
    rw [nested_phase3] at h
    rcases hitem : nested_item fuel os cfg m c st with _ | ⟨nested, nlevels, st₂⟩
    · rw [hitem] at h
      exact Option.noConfusion h
    · rw [hitem] at h
      dsimp only at h
      rcases hrest : nested_phase3 fuel os cfg m cs st₂ with _ | ⟨rest_uids, rest_levels, st₃⟩
      · rw [hrest] at h
        exact Option.noConfusion h
      · rw [hrest] at h
        dsimp only at h
        have h' := Option.some.inj h
        have hn : c :: (nested ++ rest_uids) = out := congrArg Prod.fst h'
        have h1 := nested_item_len fuel os cfg m c st nested nlevels st₂ hitem
        have h2 := ih st₂ rest_uids rest_levels st₃ hrest
        rw [← hn]
        simp only [List.length_cons, List.length_append, List.map_cons, List.sum_cons]
        omega

/-! ### C2 amended -/

/-- C2, amended: for distinct top-level children, the selector's budget
covers the top-level rows and the nested rows — their count never exceeds
`max_row` — but each directory child whose nested listing was cut
additionally emits one unbudgeted truncation-marker row, so the flattened
output is only bounded by `max_row` plus the number of top-level children
(at most one marker each). -/
theorem c2_nested_budget_amended :
    ∀ (fuel : Nat) (os : Os) (st : Store) (contents : List Uid)
      (cfg : PrintDirConfig) (out : List Uid) (levels : List Nat) (st' : Store),
      contents.Nodup →
      add_nested_contents fuel os st contents cfg = some (out, levels, st') →
      out.length ≤ cfg.max_row + contents.length := by
  intro fuel os st contents cfg out levels st' hnodup h
  rw [add_nested_contents] at h
  split at h
  · exact Option.noConfusion h
  · next hguard =>
    have hlen : contents.length ≤ cfg.max_row := Nat.le_of_not_lt hguard
    rcases hp1 : nested_phase1 fuel os cfg.show_hidden_files contents (fun _ => 0)
        (cfg.max_row - contents.length) st with _ | ⟨m1, rem1, st1⟩
    · rw [hp1] at h
      exact Option.noConfusion h
    · rw [hp1] at h
      dsimp only at h
      rcases hlp : nested_loop fuel os cfg.show_hidden_files contents (rem1 + 1)
          m1 rem1 st1 with _ | ⟨m2, rem2, st2⟩
      · rw [hlp] at h
        exact Option.noConfusion h
      · rw [hlp] at h
        dsimp only at h
        rcases hp3 : nested_phase3 fuel os cfg m2 contents st2
            with _ | ⟨out0, lv0, st3⟩
        · rw [hp3] at h
          exact Option.noConfusion h
        · rw [hp3] at h
          dsimp only at h
          split at h
          · have h' := Option.some.inj h
            have hout : out0 = out := congrArg Prod.fst h'
            obtain ⟨hb1, _⟩ := nested_phase1_bound fuel os cfg.show_hidden_files
              contents (fun _ => 0) (cfg.max_row - contents.length) st
              m1 rem1 st1 hnodup hp1
            have hb2 := nested_loop_bound fuel os cfg.show_hidden_files contents
              hnodup (rem1 + 1) m1 rem1 st1 m2 rem2 st2 hlp
            have hb3 := nested_phase3_len fuel os cfg m2 contents st2
              out0 lv0 st3 hp3
            rw [← hout]
            omega
          · exact Option.noConfusion h

/-- C2 witness: the amended bound applied at the counterexample store —
17 rows is within `max_row + #children = 12 + 7`. -/
theorem c2_nested_budget_amended_witness :
    c2_contents.Nodup ∧
    ∃ out levels st',
      add_nested_contents 2 c2_os c2_store c2_contents c2_cfg
        = some (out, levels, st') ∧
      out.length ≤ c2_cfg.max_row + c2_contents.length := by
  obtain ⟨⟨out, levels, st'⟩, heq⟩ :
      ∃ r, add_nested_contents 2 c2_os c2_store c2_contents c2_cfg = some r := by
    rcases hr : add_nested_contents 2 c2_os c2_store c2_contents c2_cfg with _ | r
    · exact absurd hr (by decide)
    · exact ⟨r, rfl⟩
  exact ⟨by decide, out, levels, st', heq,
    c2_nested_budget_amended 2 c2_os c2_store c2_contents c2_cfg out levels st'
      (by decide) heq⟩

/-! ### C1: invariants for the memoized recursive size -/

/-- Every directory entry in the store is already expanded (in the running
program this is arranged by `init_children`/`get_children_num` before sizes
are summed; under it `get_recursive_size` performs pure reads plus memo
writes). -/
def ExpandedStore (st : Store) : Prop :=
  ∀ p ∈ st.files, (p : Uid × File).2.is_dir = true → (p.2.children).isSome = true

/-- The parent/child graph is acyclic, witnessed by a rank function that
strictly decreases along every child edge (the store is built from a real
filesystem tree, "cycles avoided by construction"). -/
def RankOkStore (rank : Uid → Nat) (st : Store) : Prop :=
  ∀ p ∈ st.files, ∀ cs, (p : Uid × File).2.children = some cs →
    ∀ c ∈ cs, rank c < rank p.1

theorem expanded_lookup (st : Store) (u : Uid) (f : File)
    (hexp : ExpandedStore st) (h : get_file_by_uid st u = some f)
    (hdir : f.is_dir = true) : (f.children).isSome = true := by
  unfold get_file_by_uid at h
  rcases hf : st.files.find? (fun p => p.1 == u) with _ | q
  · rw [hf] at h
    exact Option.noConfusion h
  · rw [hf] at h
    have hq2 : q.2 = f := Option.some.inj h
    have hmem := List.mem_of_find?_eq_some hf
    rw [← hq2]
    exact hexp q hmem (hq2 ▸ hdir)

theorem rankok_lookup (rank : Uid → Nat) (st : Store) (u : Uid) (f : File)
    (cs : List Uid) (c : Uid) (hrank : RankOkStore rank st)
    (h : get_file_by_uid st u = some f) (hcs : f.children = some cs)
    (hc : c ∈ cs) : rank c < rank u := by
  unfold get_file_by_uid at h
  rcases hf : st.files.find? (fun p => p.1 == u) with _ | q
  · rw [hf] at h
    exact Option.noConfusion h
  · rw [hf] at h
    have hq2 : q.2 = f := Option.some.inj h
    have hq1 : q.1 = u := by simpa using List.find?_some hf
    have hmem := List.mem_of_find?_eq_some hf
    rw [← hq1]
    exact hrank q hmem cs (hq2 ▸ hcs) c hc

/-- The fields of one `files` pair that memo writes never change. -/
def pair_step (p q : Uid × File) : Prop :=
  q.1 = p.1 ∧ q.2.children = p.2.children ∧ q.2.file_type = p.2.file_type ∧
  q.2.uid = p.2.uid

/-- The state evolution of `get_recursive_size` on an expanded store: only
`recursive_size` fields change, and a present memo is never overwritten. -/
def memo_step (st st' : Store) : Prop :=
  st'.paths = st.paths ∧ st'.fresh = st.fresh ∧ st'.os_reads = st.os_reads ∧
  List.Forall₂ pair_step st.files st'.files ∧
  (∀ u f, get_file_by_uid st u = some f → ∃ f', get_file_by_uid st' u = some f' ∧
    f'.children = f.children ∧
    (∀ v, f.recursive_size = some v → f'.recursive_size = some v))

theorem pair_step_refl (p : Uid × File) : pair_step p p := ⟨rfl, rfl, rfl, rfl⟩

theorem forall₂_pair_step_refl : ∀ l : List (Uid × File), List.Forall₂ pair_step l l := by
  intro l
  induction l with
  | nil => exact List.Forall₂.nil
  | cons p l ih => exact List.Forall₂.cons (pair_step_refl p) ih

theorem memo_step_refl (st : Store) : memo_step st st :=
  ⟨rfl, rfl, rfl, forall₂_pair_step_refl st.files,
   fun u f h => ⟨f, h, rfl, fun _ hv => hv⟩⟩

theorem forall₂_pair_step_trans : ∀ {l₁ l₂ l₃ : List (Uid × File)},
    List.Forall₂ pair_step l₁ l₂ → List.Forall₂ pair_step l₂ l₃ →
    List.Forall₂ pair_step l₁ l₃ := by
  intro l₁ l₂ l₃ h1
  induction h1 generalizing l₃ with
  | nil =>
    intro h2
    cases h2
    exact List.Forall₂.nil
  | cons hab h1 ih =>
    intro h2
    cases h2 with
    | cons hbc h2 =>
      exact List.Forall₂.cons
        ⟨hbc.1.trans hab.1, hbc.2.1.trans hab.2.1, hbc.2.2.1.trans hab.2.2.1,
         hbc.2.2.2.trans hab.2.2.2⟩ (ih h2)

theorem memo_step_trans {st₁ st₂ st₃ : Store}
    (h1 : memo_step st₁ st₂) (h2 : memo_step st₂ st₃) : memo_step st₁ st₃ := by
  obtain ⟨hp1, hf1, ho1, hl1, hk1⟩ := h1
  obtain ⟨hp2, hf2, ho2, hl2, hk2⟩ := h2
  refine ⟨hp2.trans hp1, hf2.trans hf1, ho2.trans ho1,
    forall₂_pair_step_trans hl1 hl2, ?_⟩
  intro u f h
  obtain ⟨f₁, hf₁, hc₁, hm₁⟩ := hk1 u f h
  obtain ⟨f₂, hf₂, hc₂, hm₂⟩ := hk2 u f₁ hf₁
  exact ⟨f₂, hf₂, hc₂.trans hc₁, fun v hv => hm₂ v (hm₁ v hv)⟩

theorem forall₂_mem_right : ∀ {l₁ l₂ : List (Uid × File)},
    List.Forall₂ pair_step l₁ l₂ → ∀ q ∈ l₂, ∃ p ∈ l₁, pair_step p q := by
  intro l₁ l₂ h
  induction h with
  | nil => intro q hq; cases hq
  | cons hab h ih =>
    intro q hq
    rcases List.mem_cons.mp hq with hq | hq
    · exact ⟨_, List.mem_cons_self _ _, hq ▸ hab⟩
    · obtain ⟨p, hp, hps⟩ := ih q hq
      exact ⟨p, List.mem_cons_of_mem _ hp, hps⟩

theorem expanded_of_memo_step {st st' : Store} (h : memo_step st st')
    (hexp : ExpandedStore st) : ExpandedStore st' := by
  intro q hq hdir
  obtain ⟨p, hp, hps⟩ := forall₂_mem_right h.2.2.2.1 q hq
  obtain ⟨_, hch, hft, huid⟩ := hps
  have hdir' : p.2.is_dir = true := by
    unfold File.is_dir File.is_special_file at hdir ⊢
    rw [← huid, ← hft]
    exact hdir
  rw [hch]
  exact hexp p hp hdir'

theorem rankok_of_memo_step {rank : Uid → Nat} {st st' : Store}
    (h : memo_step st st') (hrank : RankOkStore rank st) : RankOkStore rank st' := by
  intro q hq cs hcs c hc
  obtain ⟨p, hp, hps⟩ := forall₂_mem_right h.2.2.2.1 q hq
  obtain ⟨hk, hch, _, _⟩ := hps
  rw [hk]
  exact hrank p hp cs (by rw [← hch]; exact hcs) c hc

theorem forall₂_pair_step_update (u : Uid) (s : Nat) :
    ∀ l : List (Uid × File),
      List.Forall₂ pair_step l
        (l.map (fun p => if p.1 == u then (p.1, { p.2 with recursive_size := some s }) else p)) := by
  intro l
  induction l with
  | nil => exact List.Forall₂.nil
  | cons p l ih =>
    rw [List.map_cons]
    by_cases hc : (p.1 == u) = true
    · rw [if_pos hc]
      exact List.Forall₂.cons ⟨rfl, rfl, rfl, rfl⟩ ih
    · rw [if_neg hc]
      exact List.Forall₂.cons (pair_step_refl p) ih

/-- Writing a fresh memo (`recursive_size := some s` where the looked-up
entry had `none`) is a `memo_step`. -/
theorem memo_step_update (st : Store) (uid : Uid) (f : File) (s : Nat)
    (hlook : get_file_by_uid st uid = some f) (hmemo : f.recursive_size = none) :
    memo_step st (st.update_file uid (fun g => { g with recursive_size := some s })) := by
  refine ⟨rfl, rfl, rfl, forall₂_pair_step_update uid s st.files, ?_⟩
  intro u g hg
  by_cases hu : u = uid
  · subst hu
    have hgf : g = f := Option.some.inj (hg ▸ hlook ▸ rfl)
    refine ⟨{ g with recursive_size := some s }, ?_, rfl, ?_⟩
    · rw [get_file_update_self, hg]
      rfl
    · intro v hv
      rw [hgf] at hv
      rw [hmemo] at hv
      exact Option.noConfusion hv
  · refine ⟨g, ?_, rfl, fun v hv => hv⟩
    rw [get_file_update_ne st uid u _ hu, hg]

/-- On an expanded store, `get_children_num(_, true)` is a pure read. -/
theorem gcn_expanded_spec (fuel : Nat) (os : Os) (st : Store) (uid : Uid)
    (n : Nat) (st₂ : Store) (hexp : ExpandedStore st)
    (h : get_children_num fuel os st uid true = some (n, st₂)) :
    st₂ = st ∧ ∃ f, get_file_by_uid st uid = some f ∧
      (f.is_dir = true → ∃ c, f.children = some c ∧ n = c.length) ∧
      (f.is_dir = false → n = 0) := by
  rw [get_children_num] at h
  rcases hfu : get_file_by_uid st uid with _ | f
  · rw [hfu] at h
    exact Option.noConfusion h
  · rw [hfu] at h
    dsimp only at h
    by_cases hdir : f.is_dir = true
    · rw [if_pos hdir] at h
      rcases hch : f.children with _ | c
      · have := expanded_lookup st uid f hexp hfu hdir
        rw [hch] at this
        exact absurd this (by simp)
      · rw [hch] at h
        dsimp only at h
        rw [if_pos rfl] at h
        have h' := Option.some.inj h
        have hn : c.length = n := congrArg Prod.fst h'
        have hst : st = st₂ := congrArg Prod.snd h'
        exact ⟨hst.symm, f, rfl,
          fun _ => ⟨c, hch, hn.symm⟩,
          fun hnd => absurd hdir (by rw [hnd]; exact Bool.false_ne_true)⟩
    · have hdir' : f.is_dir = false := by
        cases hb : f.is_dir
        · rfl
        · exact absurd hb hdir
      rw [if_neg hdir] at h
      have h' := Option.some.inj h
      have hn : 0 = n := congrArg Prod.fst h'
      have hst : st = st₂ := congrArg Prod.snd h'
      exact ⟨hst.symm, f, rfl,
        fun hd => absurd hd (by rw [hdir']; exact Bool.false_ne_true),
        fun _ => hn.symm⟩

/-- On an expanded store, `get_children(_, true)` is a pure read returning
exactly the entry's `children` list (or `[]` for a non-directory). -/
theorem gc_expanded_spec (fuel : Nat) (os : Os) (st : Store) (uid : Uid)
    (cs : List Uid) (st₂ : Store) (hexp : ExpandedStore st)
    (h : get_children fuel os st uid true = some (cs, st₂)) :
    st₂ = st ∧ ∃ f, get_file_by_uid st uid = some f ∧
      (f.is_dir = true → f.children = some cs) ∧
      (f.is_dir = false → cs = []) := by
  rw [get_children] at h
  rcases hn : get_children_num fuel os st uid true with _ | ⟨n, st₁⟩
  · rw [hn] at h
    exact Option.noConfusion h
  · rw [hn] at h
    dsimp only at h
    obtain ⟨hst₁, f, hfu, hdirn, hnodirn⟩ := gcn_expanded_spec fuel os st uid n st₁ hexp hn
    rw [hst₁] at h
    by_cases hz : (n == 0) = true
    · rw [if_pos hz] at h
      have h' := Option.some.inj h
      have hcs : ([] : List Uid) = cs := congrArg Prod.fst h'
      have hst : st = st₂ := congrArg Prod.snd h'
      refine ⟨hst.symm, f, hfu, ?_, fun _ => hcs.symm⟩
      intro hdir
      obtain ⟨c, hc, hnc⟩ := hdirn hdir
      have hn0 : n = 0 := by simpa using hz
      have hc0 : c = [] := List.length_eq_zero.mp (by omega)
      rw [hc, hc0, ← hcs]
    · rw [if_neg hz] at h
      rw [hfu] at h
      dsimp only at h
      rcases hch : f.children with _ | c
      · rw [hch] at h
        exact Option.noConfusion h
      · rw [hch] at h
        dsimp only at h
        rw [if_pos rfl] at h
        split at h
        · have h' := Option.some.inj h
          have hcs : c = cs := congrArg Prod.fst h'
          have hst : st = st₂ := congrArg Prod.snd h'
          refine ⟨hst.symm, f, hfu, fun _ => by rw [hch, hcs], ?_⟩
          intro hnd
          have hn0 := hnodirn hnd
          exact absurd (by simpa using hn0 : (n == 0) = true) hz
        · exact Option.noConfusion h

/-- All memo writes between two states happened at uids of rank at most
`bound`. -/
def writes_below (st st' : Store) (rank : Uid → Nat) (bound : Nat) : Prop :=
  ∀ u f f', get_file_by_uid st u = some f → get_file_by_uid st' u = some f' →
    f.recursive_size ≠ f'.recursive_size → rank u ≤ bound

/-- All memo writes between two states happened at uids of rank at most the
rank of some member of `cs`. -/
def writes_in (st st' : Store) (rank : Uid → Nat) (cs : List Uid) : Prop :=
  ∀ u f f', get_file_by_uid st u = some f → get_file_by_uid st' u = some f' →
    f.recursive_size ≠ f'.recursive_size → ∃ c ∈ cs, rank u ≤ rank c

/-- Specification of the summation loop of `get_recursive_size`, parametric
in the recursive call. -/
theorem sum_loop_spec (rank : Uid → Nat) (grsf : Store → Uid → Option (Nat × Store))
    (hf : ∀ (st : Store) (u : Uid) (v : Nat) (st₂ : Store),
      ExpandedStore st → RankOkStore rank st → grsf st u = some (v, st₂) →
      memo_step st st₂ ∧ writes_below st st₂ rank (rank u) ∧
      ∃ f', get_file_by_uid st₂ u = some f' ∧ f'.recursive_size = some v) :
    ∀ (cs : List Uid) (st : Store) (s : Nat) (st' : Store),
      ExpandedStore st → RankOkStore rank st →
      sum_recursive_sizes grsf cs st = some (s, st') →
      memo_step st st' ∧ writes_in st st' rank cs ∧
      ∃ vs, List.Forall₂ (fun c v => ∃ g, get_file_by_uid st' c = some g ∧
        g.recursive_size = some v) cs vs ∧ s = vs.sum := by
  intro cs
  induction cs with
  | nil =>
    intro st s st' hexp hrank h
    have h' := Option.some.inj h
    have hs : 0 = s := congrArg Prod.fst h'
    have hst : st = st' := congrArg Prod.snd h'
    subst hst
    refine ⟨memo_step_refl st, ?_, [], List.Forall₂.nil, hs.symm⟩
    intro u f f' h1 h2 hne
    exact absurd (congrArg File.recursive_size (Option.some.inj (h1.symm.trans h2))) hne
  | cons c cs ih =>
    intro st s st' hexp hrank h
    rw [sum_recursive_sizes] at h
    rcases hc : grsf st c with _ | ⟨v, st₁⟩
    · rw [hc] at h
      exact Option.noConfusion h
    · rw [hc] at h
      dsimp only at h
      rcases hrest : sum_recursive_sizes grsf cs st₁ with _ | ⟨s', stx⟩
      · rw [hrest] at h
        exact Option.noConfusion h
      · rw [hrest] at h
        dsimp only at h
        have h' := Option.some.inj h
        have hs : v + s' = s := congrArg Prod.fst h'
        have hst : stx = st' := congrArg Prod.snd h'
        subst hst
        obtain ⟨ms1, wb1, fc, hfc, hmc⟩ := hf st c v st₁ hexp hrank hc
        obtain ⟨ms2, wi2, vs, hvs, hs'⟩ := ih st₁ s' stx
          (expanded_of_memo_step ms1 hexp) (rankok_of_memo_step ms1 hrank) hrest
        refine ⟨memo_step_trans ms1 ms2, ?_, v :: vs, ?_, ?_⟩
        · intro u f f' h1 h2 hne
          obtain ⟨f₁, h1', _, mono1⟩ := ms1.2.2.2.2 u f h1
          by_cases hchg : f.recursive_size = f₁.recursive_size
          · have hne₁ : f₁.recursive_size ≠ f'.recursive_size := by
              rw [← hchg]
              exact hne
            obtain ⟨c', hc', hle⟩ := wi2 u f₁ f' h1' h2 hne₁
            exact ⟨c', List.mem_cons_of_mem c hc', hle⟩
          · exact ⟨c, List.mem_cons_self c cs, wb1 u f f₁ h1 h1' hchg⟩
        · refine List.Forall₂.cons ?_ hvs
          obtain ⟨g, hg, _, mono⟩ := ms2.2.2.2.2 c fc hfc
          exact ⟨g, hg, mono v hmc⟩
        · rw [← hs, hs']
          rfl

/-- Main invariant of `get_recursive_size` on an expanded, acyclic store:
a successful call only changes memo fields, writes only at ranks at most
the queried uid's rank, and leaves the queried entry memoized with the
returned value. -/
theorem grs_main : ∀ (fuel : Nat) (os : Os) (st : Store) (uid : Uid) (s : Nat)
    (st' : Store) (rank : Uid → Nat), ExpandedStore st → RankOkStore rank st →
    get_recursive_size fuel os st uid = some (s, st') →
    memo_step st st' ∧ writes_below st st' rank (rank uid) ∧
    ∃ f', get_file_by_uid st' uid = some f' ∧ f'.recursive_size = some s := by
  intro fuel
  induction fuel with
  | zero =>
    intro os st uid s st' rank hexp hrank h
    rw [get_recursive_size] at h
    exact Option.noConfusion h
  | succ fuel ih =>
    intro os st uid s st' rank hexp hrank h
    rw [get_recursive_size] at h
    rcases hfu : get_file_by_uid st uid with _ | f
    · rw [hfu] at h
      exact Option.noConfusion h
    · rw [hfu] at h
      dsimp only at h
      rcases hm : f.recursive_size with _ | s0
      · rw [hm] at h
        dsimp only at h
        rcases hgc : get_children fuel os st uid true with _ | ⟨cs, st₁⟩
        · rw [hgc] at h
          exact Option.noConfusion h
        · rw [hgc] at h
          dsimp only at h
          obtain ⟨hst₁, f₀, hfu₀, hdirch, hnodirch⟩ :=
            gc_expanded_spec fuel os st uid cs st₁ hexp hgc
          have hf₀ : f₀ = f := Option.some.inj (hfu₀.symm.trans hfu)
          rw [hf₀] at hdirch hnodirch
          rw [hst₁] at h
          rcases hsum : sum_recursive_sizes (get_recursive_size fuel os) cs st
              with _ | ⟨sum, st₂⟩
          · rw [hsum] at h
            exact Option.noConfusion h
          · rw [hsum] at h
            dsimp only at h
            obtain ⟨ms2, wi2, vs, hvs, hsumeq⟩ := sum_loop_spec rank
              (get_recursive_size fuel os)
              (fun st u v st₂ he hr hh => ih os st u v st₂ rank he hr hh)
              cs st sum st₂ hexp hrank hsum
            rcases hfu₂ : get_file_by_uid st₂ uid with _ | f₂
            · rw [hfu₂] at h
              exact Option.noConfusion h
            · rw [hfu₂] at h
              dsimp only at h
              have h' := Option.some.inj h
              have hs : sum = s := congrArg Prod.fst h'
              have hst' : st₂.update_file uid
                  (fun f => { f with recursive_size := some sum }) = st' :=
                congrArg Prod.snd h'
              subst hst'
              have hkey : ∀ c' ∈ cs, rank c' < rank uid := by
                intro c' hc'
                by_cases hdir : f.is_dir = true
                · exact rankok_lookup rank st uid f cs c' hrank hfu (hdirch hdir) hc'
                · have hfalse : f.is_dir = false := by
                    revert hdir
                    cases f.is_dir <;> simp
                  rw [hnodirch hfalse] at hc'
                  exact absurd hc' (List.not_mem_nil c')
              have hr₂ : f₂.recursive_size = none := by
                by_contra hcon
                have hne : f.recursive_size ≠ f₂.recursive_size := by
                  rw [hm]
                  exact fun hcon2 => hcon hcon2.symm
                obtain ⟨c', hc', hle⟩ := wi2 uid f f₂ hfu hfu₂ hne
                have := hkey c' hc'
                omega
              have ms3 := memo_step_update st₂ uid f₂ sum hfu₂ hr₂
              refine ⟨memo_step_trans ms2 ms3, ?_, ?_⟩
              · intro u g₁ g₂ h1 h2 hne
                by_cases hu : u = uid
                · subst hu
                  exact Nat.le_refl _
                · have h2' : get_file_by_uid st₂ u = some g₂ :=
                    (get_file_update_ne st₂ uid u _ hu).symm.trans h2
                  obtain ⟨c', hc', hle⟩ := wi2 u g₁ g₂ h1 h2' hne
                  exact Nat.le_of_lt (Nat.lt_of_le_of_lt hle (hkey c' hc'))
              · refine ⟨{ f₂ with recursive_size := some sum }, ?_, ?_⟩
                · rw [get_file_update_self, hfu₂]
                  rfl
                · rw [← hs]
      · rw [hm] at h
        dsimp only at h
        have h' := Option.some.inj h
        have hs : s0 = s := congrArg Prod.fst h'
        have hst : st = st' := congrArg Prod.snd h'
        subst hst
        refine ⟨memo_step_refl st, ?_, f, hfu, ?_⟩
        · intro u g g' h1 h2 hne
          exact absurd (congrArg File.recursive_size
            (Option.some.inj (h1.symm.trans h2))) hne
        · rw [hm, hs]

/-- A memo hit returns the stored value and leaves the store untouched. -/
theorem grs_memo_hit (fuel : Nat) (os : Os) (st : Store) (uid : Uid) (f : File)
    (s0 : Nat) (hfu : get_file_by_uid st uid = some f)
    (hm : f.recursive_size = some s0) :
    get_recursive_size (fuel+1) os st uid = some (s0, st) := by
  rw [get_recursive_size, hfu]
  dsimp only
  rw [hm]

/-- Transport a `Forall₂` along an implication that may use membership. -/
theorem forall₂_imp_mem {α β : Type} {R S : α → β → Prop} :
    ∀ {l : List α} {l' : List β}, List.Forall₂ R l l' →
    (∀ a ∈ l, ∀ b, R a b → S a b) → List.Forall₂ S l l' := by
  intro l l' h
  induction h with
  | nil =>
    intro _
    exact List.Forall₂.nil
  | cons hab htail ih =>
    intro hmem
    exact List.Forall₂.cons (hmem _ (List.mem_cons_self _ _) _ hab)
      (ih (fun a ha b hr => hmem a (List.mem_cons_of_mem _ ha) b hr))

/-- C1: on a store whose directories are all expanded and whose parent/child
graph is acyclic (witnessed by a rank function), `get_recursive_size` behaves
as specified: (1) any entry whose memo is present returns the memo with the
store unchanged (no recomputation); (2) a regular file created from a
directory entry is memoized at creation with its direct size; (3) the first
call on an unmemoized directory returns the sum of the recursive sizes of
all its children (hidden included), memoizes that sum into the directory's
entry, and every later call returns the memo with the store unchanged. -/
theorem c1_recursive_size_spec (os : Os) (st : Store) (uid : Uid)
    (rank : Uid → Nat) (hexp : ExpandedStore st) (hrank : RankOkStore rank st) :
    (∀ (fuel : Nat) (st₀ : Store) (f : File) (s0 : Nat),
      get_file_by_uid st₀ uid = some f → f.recursive_size = some s0 →
      get_recursive_size (fuel+1) os st₀ uid = some (s0, st₀)) ∧
    (∀ (d : OsDirEntry) (m : OsMeta) (parent : Option Uid) (st₀ st₀' : Store)
      (u : Uid), d.meta = Except.ok m → d.name_utf8 = true →
      m.file_type = FileType.file →
      new_from_dir_entry d parent st₀ = some (u, st₀') →
      ∃ g, get_file_by_uid st₀' u = some g ∧ g.size = m.size ∧
        g.recursive_size = some m.size) ∧
    (∀ (fuel : Nat) (f : File) (cs : List Uid) (s : Nat) (st' : Store),
      get_file_by_uid st uid = some f → f.is_dir = true → f.children = some cs →
      f.recursive_size = none →
      get_recursive_size fuel os st uid = some (s, st') →
      (∃ f', get_file_by_uid st' uid = some f' ∧ f'.recursive_size = some s ∧
        f'.children = some cs) ∧
      (∃ vs, List.Forall₂ (fun c v => ∃ g, get_file_by_uid st' c = some g ∧
        g.recursive_size = some v) cs vs ∧ s = vs.sum) ∧
      (∀ fuel₂ : Nat, get_recursive_size (fuel₂+1) os st' uid = some (s, st'))) := by
  refine ⟨?_, ?_, ?_⟩
  · intro fuel st₀ f s0 hfu hm
    exact grs_memo_hit fuel os st₀ uid f s0 hfu hm
  · intro d m parent st₀ st₀' u hmeta hutf hft h
    rw [new_from_dir_entry] at h
    rw [hmeta] at h
    dsimp only at h
    rw [hutf] at h
    rw [Bool.not_true] at h
    rw [if_neg Bool.false_ne_true] at h
    rw [Store.fresh_normal_uid] at h
    dsimp only at h
    have h' := Option.some.inj h
    have hu : (⟨0, st₀.fresh⟩ : Uid) = u := congrArg Prod.fst h'
    have hst : _ = st₀' := congrArg Prod.snd h'
    subst hu
    subst hst
    refine ⟨_, get_file_insert_self _ _ _, rfl, ?_⟩
    rw [hft]
    simp
  · intro fuel f cs s st' hfu hdir hcs hmem h
    cases fuel with
    | zero =>
      rw [get_recursive_size] at h
      exact Option.noConfusion h
    | succ fuel₀ =>
      rw [get_recursive_size] at h
      rw [hfu] at h
      dsimp only at h
      rw [hmem] at h
      dsimp only at h
      rcases hgc : get_children fuel₀ os st uid true with _ | ⟨cs', st₁⟩
      · rw [hgc] at h
        exact Option.noConfusion h
      · rw [hgc] at h
        dsimp only at h
        obtain ⟨hst₁, f₀, hfu₀, hdirch, _⟩ :=
          gc_expanded_spec fuel₀ os st uid cs' st₁ hexp hgc
        have hf₀ : f₀ = f := Option.some.inj (hfu₀.symm.trans hfu)
        rw [hf₀] at hdirch
        have hcs' : cs' = cs := Option.some.inj ((hdirch hdir).symm.trans hcs)
        rw [hcs'] at h
        rw [hst₁] at h
        rcases hsum : sum_recursive_sizes (get_recursive_size fuel₀ os) cs st
            with _ | ⟨sum, st₂⟩
        · rw [hsum] at h
          exact Option.noConfusion h
        · rw [hsum] at h
          dsimp only at h
          obtain ⟨ms2, wi2, vs, hvs, hsumeq⟩ := sum_loop_spec rank
            (get_recursive_size fuel₀ os)
            (fun sta u v stb he hr hh => grs_main fuel₀ os sta u v stb rank he hr hh)
            cs st sum st₂ hexp hrank hsum
          rcases hfu₂ : get_file_by_uid st₂ uid with _ | f₂
          · rw [hfu₂] at h
            exact Option.noConfusion h
          · rw [hfu₂] at h
            dsimp only at h
            have h' := Option.some.inj h
            have hs : sum = s := congrArg Prod.fst h'
            have hst' : st₂.update_file uid
                (fun g => { g with recursive_size := some sum }) = st' :=
              congrArg Prod.snd h'
            subst hst'
            have hlt : ∀ c ∈ cs, rank c < rank uid :=
              fun c hc => rankok_lookup rank st uid f cs c hrank hfu hcs hc
            obtain ⟨f₂', hf₂', hch₂, _⟩ := ms2.2.2.2.2 uid f hfu
            have hf₂eq : f₂' = f₂ := Option.some.inj (hf₂'.symm.trans hfu₂)
            rw [hf₂eq] at hch₂
            have hlook' : get_file_by_uid
                (st₂.update_file uid (fun g => { g with recursive_size := some sum }))
                uid = some { f₂ with recursive_size := some sum } := by
              rw [get_file_update_self, hfu₂]
              rfl
            refine ⟨⟨{ f₂ with recursive_size := some sum }, hlook', ?_, ?_⟩, ?_, ?_⟩
            · rw [← hs]
            · show f₂.children = some cs
              rw [hch₂, hcs]
            · refine ⟨vs, forall₂_imp_mem hvs ?_, ?_⟩
              · intro c hc v hr
                obtain ⟨g, hg, hgv⟩ := hr
                have hne : c ≠ uid :=
                  fun he => absurd (he ▸ hlt c hc) (Nat.lt_irrefl _)
                exact ⟨g, (get_file_update_ne st₂ uid c _ hne).trans hg, hgv⟩
              · rw [← hs]
                exact hsumeq
            · intro fuel₂
              exact grs_memo_hit fuel₂ os _ uid { f₂ with recursive_size := some sum }
                s hlook' (by rw [← hs])

/-- Rank function witnessing acyclicity of `c6_store`: the directory has
rank 1, its three files rank 0. -/
def c1w_rank : Uid → Nat := fun u => if u.val = 2 then 1 else 0

/-- The unmemoized directory entry of `c6_store`. -/
def c1w_dir : File :=
  { parent := none, uid := ⟨0, 2⟩, name := "d", last_modified := 0,
    size := 0, recursive_size := none, file_type := FileType.dir,
    file_ext := none, children := some [⟨0, 3⟩, ⟨0, 4⟩, ⟨0, 5⟩] }

/-- The store after the first recursive-size call on the directory. -/
def c1w_final : Store :=
  c6_store.update_file ⟨0, 2⟩ (fun g => { g with recursive_size := some 5002058 })

theorem c1_recursive_size_spec_witness :
    (∃ f', get_file_by_uid c1w_final ⟨0, 2⟩ = some f' ∧
      f'.recursive_size = some 5002058 ∧
      f'.children = some [⟨0, 3⟩, ⟨0, 4⟩, ⟨0, 5⟩]) ∧
    get_recursive_size 3 c6_os c1w_final ⟨0, 2⟩ = some (5002058, c1w_final) := by
  have hexp : ExpandedStore c6_store := by
    unfold ExpandedStore
    decide
  have hrank : RankOkStore c1w_rank c6_store := by
    intro p hp cs hcs c hc
    simp only [c6_store, List.mem_cons, List.not_mem_nil, or_false] at hp
    rcases hp with h1 | h1 | h1 | h1
    · subst h1
      have hcs' := Option.some.inj hcs
      subst hcs'
      simp only [List.mem_cons, List.not_mem_nil, or_false] at hc
      rcases hc with rfl | rfl | rfl <;> decide
    · subst h1
      exact Option.noConfusion hcs
    · subst h1
      exact Option.noConfusion hcs
    · subst h1
      exact Option.noConfusion hcs
  obtain ⟨hA, hB, hC⟩ :=
    (c1_recursive_size_spec c6_os c6_store ⟨0, 2⟩ c1w_rank hexp hrank).2.2
      5 c1w_dir [⟨0, 3⟩, ⟨0, 4⟩, ⟨0, 5⟩] 5002058 c1w_final
      (by decide) (by decide) (by decide) (by decide) (by decide)
  exact ⟨hA, hC 2⟩
